import Mathlib

/-!
Shallow embedding of the `buisson` dependency-graph / scheduling engine
(`buisson-common/src/lib.rs`, `buisson-database/src/lib.rs`) and proofs of the
specification claims about it.

Modelling conventions:
* `Id` (Rust `u64`) is modelled as `Nat`; where 64-bit width matters
  (serialization) the bound `id < 2^64` is explicit.
* `chrono::NaiveDate` is modelled as `Int`, a day ordinal; adding `Days` is
  integer addition.
* Rust `HashMap` is modelled as an association list with unique keys; `insert`
  replaces any previous binding, `remove` removes the binding.
* A Rust panic (`unwrap` / `expect` failure) is modelled by `Option`: `none`
  means the operation panicked. Recursive functions whose termination relies on
  acyclicity of the input take an explicit fuel parameter; exhausting fuel also
  yields `none`.
* the current date, read on the spot from the system clock by the Rust code
  (`chrono::offset::Local::now().date_naive()`), is threaded through as an
  explicit `today : Int` value representing the clock's reading.
-/

namespace Buisson

abbrev Id := Nat

/-- `days_from_level` from `buisson-common/src/lib.rs`:
the spaced-repetition review interval, in days, for a practice level. -/
def days_from_level : Nat → Nat
  | 0 => 1
  | 1 => 5
  | 2 => 15
  | n + 3 => 2 * days_from_level (n + 2)

/-- `LessonStatus` from `buisson-common/src/lib.rs`: the practice status of a
lesson, independent of the runtime.  A date is an `Int` day ordinal. -/
inductive LessonStatus where
  | NotPracticed : LessonStatus
  | GoodEnough : LessonStatus
  | Practiced (level : Nat) (date : Int) : LessonStatus
  deriving DecidableEq, Repr

/-- `good_until` from `buisson-common/src/lib.rs`: the date up to which a
lesson practiced on `date` at level `level` is considered known. -/
def good_until (level : Nat) (date : Int) : Int :=
  date + (days_from_level level : Int)

/-- `LessonStatus::needs_work` from `buisson-common/src/lib.rs`.  The Rust
code obtains `today` by reading the system clock inside the function; the
clock reading is the explicit `today` argument here. -/
def needs_work (today : Int) : LessonStatus → Bool
  | .GoodEnough => false
  | .NotPracticed => true
  | .Practiced level date => good_until level date ≤ today

/-- `NodeStatus` from `buisson-common/src/lib.rs`: the derived readiness
status of a node. -/
inductive NodeStatus where
  | Ok : NodeStatus
  | MissingPrereq (ids : List Id) : NodeStatus
  | Pending : NodeStatus
  deriving DecidableEq, Repr

/-- `LessonInfo` from `buisson-common/src/lib.rs`. -/
structure LessonInfo where
  name : String
  direct_prerequisites : List Id
  status : LessonStatus
  tags : List String
  deriving DecidableEq, Repr

/-- `GraphNode` from `buisson-common/src/lib.rs`. -/
structure GraphNode where
  lesson : LessonInfo
  status : NodeStatus
  deriving DecidableEq, Repr

/-! ### Association lists standing in for `HashMap` -/

/-- Keyed lookup in an association list (`HashMap::get`). -/
def alookup (k : Id) : List (Id × β) → Option β
  | [] => none
  | (k', v) :: l => if k' = k then some v else alookup k l

/-- `HashMap::insert`: bind `k` to `v`, dropping any previous binding. -/
def ainsert (k : Id) (v : β) (l : List (Id × β)) : List (Id × β) :=
  (k, v) :: l.filter (fun p => p.1 ≠ k)

/-- `HashMap::remove`: drop the binding of `k`. -/
def aremove (k : Id) (l : List (Id × β)) : List (Id × β) :=
  l.filter (fun p => p.1 ≠ k)

/-- Update the value bound to `k` in place (`get_mut` followed by a write). -/
def aupdate (k : Id) (f : β → β) (l : List (Id × β)) : List (Id × β) :=
  l.map (fun p => if p.1 = k then (p.1, f p.2) else p)

theorem alookup_cons (k k' : Id) (v : β) (l : List (Id × β)) :
    alookup k ((k', v) :: l) = if k' = k then some v else alookup k l := rfl

theorem alookup_filter_ne (k : Id) (l : List (Id × β)) :
    alookup k (l.filter (fun p => p.1 ≠ k)) = none := by
  induction l with
  | nil => rfl
  | cons p l ih =>
    by_cases h : p.1 = k
    · simpa [List.filter, h] using ih
    · cases p with
      | mk k' v => simp_all [List.filter, alookup, h]

theorem alookup_filter_ne' (k k' : Id) (l : List (Id × β)) (hne : k' ≠ k) :
    alookup k' (l.filter (fun p => p.1 ≠ k)) = alookup k' l := by
  induction l with
  | nil => rfl
  | cons p l ih =>
    cases p with
    | mk a v =>
      by_cases h : a = k
      · subst h; simp_all [List.filter, alookup, Ne.symm hne]
      · by_cases h' : a = k'
        · subst h'; simp_all [List.filter, alookup]
        · simp_all [List.filter, alookup, h']

theorem alookup_ainsert_self (k : Id) (v : β) (l : List (Id × β)) :
    alookup k (ainsert k v l) = some v := by
  simp [ainsert, alookup]

theorem alookup_ainsert_ne (k k' : Id) (v : β) (l : List (Id × β)) (h : k ≠ k') :
    alookup k' (ainsert k v l) = alookup k' l := by
  simp only [ainsert, alookup, if_neg h]
  exact alookup_filter_ne' k k' l (Ne.symm h)

theorem alookup_aremove_self (k : Id) (l : List (Id × β)) :
    alookup k (aremove k l) = none := alookup_filter_ne k l

theorem alookup_aremove_ne (k k' : Id) (l : List (Id × β)) (h : k' ≠ k) :
    alookup k' (aremove k l) = alookup k' l := alookup_filter_ne' k k' l h

theorem aupdate_cons (k : Id) (f : β → β) (a : Id) (v : β) (l : List (Id × β)) :
    aupdate k f ((a, v) :: l) =
      (if a = k then (a, f v) else (a, v)) :: aupdate k f l := by
  by_cases h : a = k <;> simp [aupdate, h]

theorem alookup_aupdate_self (k : Id) (f : β → β) (l : List (Id × β)) :
    alookup k (aupdate k f l) = (alookup k l).map f := by
  induction l with
  | nil => rfl
  | cons p l ih =>
    cases p with
    | mk a v =>
      by_cases h : a = k
      · subst h; rw [aupdate_cons, if_pos rfl]; simp [alookup]
      · rw [aupdate_cons, if_neg h]; simp [alookup, h, ih]

theorem alookup_aupdate_ne (k k' : Id) (f : β → β) (l : List (Id × β)) (h : k ≠ k') :
    alookup k' (aupdate k f l) = alookup k' l := by
  induction l with
  | nil => rfl
  | cons p l ih =>
    cases p with
    | mk a v =>
      by_cases ha : a = k
      · subst ha; rw [aupdate_cons, if_pos rfl]; simp [alookup, h, ih]
      · rw [aupdate_cons, if_neg ha]
        by_cases ha' : a = k'
        · subst ha'; simp [alookup, ih]
        · simp [alookup, ha', ih]

/-- The keys of an association list. -/
def akeys (l : List (Id × β)) : List Id := l.map Prod.fst

theorem alookup_mem {k : Id} {v : β} {l : List (Id × β)} :
    alookup k l = some v → (k, v) ∈ l := by
  induction l with
  | nil => intro h; simp [alookup] at h
  | cons p l ih =>
    cases p with
    | mk a w =>
      intro h
      by_cases ha : a = k
      · subst ha; simp [alookup] at h; simp [h]
      · simp [alookup, ha] at h
        exact List.mem_cons_of_mem _ (ih h)

theorem mem_alookup {k : Id} {v : β} {l : List (Id × β)}
    (hnd : (akeys l).Nodup) (hm : (k, v) ∈ l) : alookup k l = some v := by
  induction l with
  | nil => simp at hm
  | cons p l ih =>
    cases p with
    | mk a w =>
      simp only [akeys, List.map_cons, List.nodup_cons] at hnd
      rcases List.mem_cons.mp hm with h | h
      · cases h; simp [alookup]
      · have hak : a ≠ k := by
          intro he; subst he
          exact hnd.1 (List.mem_map.mpr ⟨(a, v), h, rfl⟩)
        simp [alookup, hak]
        exact ih hnd.2 h

theorem alookup_isSome_of_mem_keys {k : Id} {l : List (Id × β)}
    (h : k ∈ akeys l) : (alookup k l).isSome := by
  induction l with
  | nil => simp [akeys] at h
  | cons p l ih =>
    cases p with
    | mk a w =>
      by_cases ha : a = k
      · subst ha; simp [alookup]
      · simp only [akeys, List.map_cons, List.mem_cons] at h
        rcases h with h | h
        · exact absurd h.symm ha
        · simpa [alookup, ha] using ih h

theorem mem_keys_of_alookup {k : Id} {v : β} {l : List (Id × β)}
    (h : alookup k l = some v) : k ∈ akeys l :=
  List.mem_map.mpr ⟨(k, v), alookup_mem h, rfl⟩

/-! ### Persisted record encoding (`buisson-database/src/lib.rs`) -/

/-- The eight big-endian bytes of a `u64` (`WriteBytesExt::write_u64::<BigEndian>`). -/
def u64_be_bytes (x : Nat) : List Nat :=
  [x / 2 ^ 56 % 256, x / 2 ^ 48 % 256, x / 2 ^ 40 % 256, x / 2 ^ 32 % 256,
   x / 2 ^ 24 % 256, x / 2 ^ 16 % 256, x / 2 ^ 8 % 256, x % 256]

/-- `ids_to_bytes` from `buisson-database/src/lib.rs`: each id is written as
eight big-endian bytes, in list order. -/
def ids_to_bytes (ids : List Id) : List Nat :=
  match ids with
  | [] => []
  | id :: rest => u64_be_bytes id ++ ids_to_bytes rest

/-- `ids_from_bytes` from `buisson-database/src/lib.rs`: read successive
8-byte big-endian integers until fewer than eight bytes remain. -/
def ids_from_bytes : List Nat → List Id
  | b7 :: b6 :: b5 :: b4 :: b3 :: b2 :: b1 :: b0 :: rest =>
      (((((((b7 * 256 + b6) * 256 + b5) * 256 + b4) * 256 + b3) * 256 + b2)
        * 256 + b1) * 256 + b0) :: ids_from_bytes rest
  | _ => []

theorem ids_from_bytes_u64_append (x : Nat) (rest : List Nat) (hx : x < 2 ^ 64) :
    ids_from_bytes (u64_be_bytes x ++ rest) = x :: ids_from_bytes rest := by
  have e56 : x / 2 ^ 56 % 256 = x / 2 ^ 56 := Nat.mod_eq_of_lt (by omega)
  have step : ∀ a b : Nat, x / a = x / b / 256 → x / a * 256 + x / b % 256 = x / b := by
    intro a b h
    rw [h]
    omega
  have e48 := step (2 ^ 56) (2 ^ 48) (by rw [Nat.div_div_eq_div_mul]; norm_num)
  have e40 := step (2 ^ 48) (2 ^ 40) (by rw [Nat.div_div_eq_div_mul]; norm_num)
  have e32 := step (2 ^ 40) (2 ^ 32) (by rw [Nat.div_div_eq_div_mul]; norm_num)
  have e24 := step (2 ^ 32) (2 ^ 24) (by rw [Nat.div_div_eq_div_mul]; norm_num)
  have e16 := step (2 ^ 24) (2 ^ 16) (by rw [Nat.div_div_eq_div_mul]; norm_num)
  have e8 := step (2 ^ 16) (2 ^ 8) (by rw [Nat.div_div_eq_div_mul]; norm_num)
  have efin : x / 2 ^ 8 * 256 + x % 256 = x := by omega
  simp only [u64_be_bytes, List.cons_append, List.nil_append, ids_from_bytes,
    List.cons.injEq]
  rw [e56, e48, e40, e32, e24, e16, e8, efin]
  exact ⟨rfl, rfl⟩

/-- Tags column encoding of the tags-aware (`next`) SQLite backend
(`buisson-database/src/lib.rs`, `next::SQLiteBackend::add_new_lesson`):
the tag list is joined with `","` (`lesson.tags.join(",")`).  Text is
modelled as `List Char`. -/
def tags_to_text : List (List Char) → List Char
  | [] => []
  | [t] => t
  | t :: ts => t ++ ',' :: tags_to_text ts

/-- Tags column decoding of the tags-aware (`next`) SQLite backend
(`buisson-database/src/lib.rs`, `next::SQLiteBackend::query_lessons`):
the stored text is split on every `','` (`tags_text.split(",")`); splitting
any text, even the empty one, yields at least one (possibly empty) piece. -/
def tags_from_text : List Char → List (List Char)
  | [] => [[]]
  | c :: rest =>
    if c = ',' then [] :: tags_from_text rest
    else
      match tags_from_text rest with
      | [] => [[c]]
      | g :: gs => (c :: g) :: gs

/-! ### The readiness recomputation rule (`Graph::compute_node_status`) -/

/-- The prerequisite scan of `compute_node_status` / `GraphBuilder::get_status`:
walk the prerequisite list in order, look up each status (a missing lookup is
a panic, i.e. `none`), and collect the prerequisites whose status is not
`Ok`. -/
def collect_missing (statusOf : Id → Option NodeStatus) : List Id → Option (List Id)
  | [] => some []
  | p :: ps =>
    match statusOf p with
    | none => none
    | some s =>
      match collect_missing statusOf ps with
      | none => none
      | some rest => some (if s = .Ok then rest else p :: rest)

/-- `Graph::compute_node_status` from `buisson-common/src/lib.rs`, abstracted
over how a prerequisite's current status is looked up: `GoodEnough` overrides
everything with `Ok`; otherwise the prerequisites not `Ok` are collected, and
if none are missing the node is `Pending`/`Ok` by `needs_work`. -/
def compute_node_status (today : Int) (statusOf : Id → Option NodeStatus)
    (prereqs : List Id) (lesson_status : LessonStatus) : Option NodeStatus :=
  if lesson_status = .GoodEnough then some .Ok
  else
    match collect_missing statusOf prereqs with
    | none => none
    | some missing =>
      some (if missing = [] then
              (if needs_work today lesson_status then .Pending else .Ok)
            else .MissingPrereq missing)

theorem collect_missing_congr {f g : Id → Option NodeStatus} {ps : List Id}
    (h : ∀ p ∈ ps, f p = g p) : collect_missing f ps = collect_missing g ps := by
  induction ps with
  | nil => rfl
  | cons p ps ih =>
    have hp : f p = g p := h p (List.mem_cons_self p ps)
    have hps : ∀ q ∈ ps, f q = g q := fun q hq => h q (List.mem_cons_of_mem p hq)
    simp only [collect_missing, hp, ih hps]

theorem compute_node_status_congr {f g : Id → Option NodeStatus} {today : Int}
    {ps : List Id} {ls : LessonStatus} (h : ∀ p ∈ ps, f p = g p) :
    compute_node_status today f ps ls = compute_node_status today g ps ls := by
  simp only [compute_node_status, collect_missing_congr h]

theorem collect_missing_mono {f g : Id → Option NodeStatus}
    (hfg : ∀ p s, f p = some s → g p = some s) {ps : List Id} {m : List Id}
    (h : collect_missing f ps = some m) : collect_missing g ps = some m := by
  induction ps generalizing m with
  | nil => simpa [collect_missing] using h
  | cons p ps ih =>
    simp only [collect_missing] at h ⊢
    match hf : f p with
    | none => rw [hf] at h; exact absurd h (by simp)
    | some s =>
      rw [hf] at h
      rw [hfg p s hf]
      match hcm : collect_missing f ps with
      | none => rw [hcm] at h; exact absurd h (by simp)
      | some rest =>
        rw [hcm] at h
        rw [ih hcm]
        exact h

theorem compute_node_status_mono {f g : Id → Option NodeStatus} {today : Int}
    (hfg : ∀ p s, f p = some s → g p = some s) {ps : List Id} {ls : LessonStatus}
    {v : NodeStatus} (h : compute_node_status today f ps ls = some v) :
    compute_node_status today g ps ls = some v := by
  simp only [compute_node_status] at h ⊢
  by_cases hge : ls = .GoodEnough
  · simpa [hge] using h
  · simp only [if_neg hge] at h ⊢
    match hcm : collect_missing f ps with
    | none => rw [hcm] at h; exact absurd h (by simp)
    | some missing => rw [hcm] at h; rw [collect_missing_mono hfg hcm]; exact h

theorem collect_missing_some_of_all_some {f : Id → Option NodeStatus} {ps : List Id}
    (h : ∀ p ∈ ps, (f p).isSome) : ∃ m, collect_missing f ps = some m := by
  induction ps with
  | nil => exact ⟨[], rfl⟩
  | cons p ps ih =>
    obtain ⟨s, hs⟩ := Option.isSome_iff_exists.mp (h p (List.mem_cons_self p ps))
    obtain ⟨m, hm⟩ := ih (fun q hq => h q (List.mem_cons_of_mem p hq))
    exact ⟨if s = .Ok then m else p :: m, by simp [collect_missing, hs, hm]⟩

theorem collect_missing_nil_iff {f : Id → Option NodeStatus} {ps m : List Id}
    (h : collect_missing f ps = some m) :
    m = [] ↔ ∀ p ∈ ps, f p = some .Ok := by
  induction ps generalizing m with
  | nil =>
    simp only [collect_missing, Option.some.injEq] at h
    subst h; simp
  | cons p ps ih =>
    simp only [collect_missing] at h
    match hf : f p with
    | none => rw [hf] at h; exact absurd h (by simp)
    | some s =>
      rw [hf] at h
      match hcm : collect_missing f ps with
      | none => rw [hcm] at h; exact absurd h (by simp)
      | some rest =>
        rw [hcm] at h
        simp only [Option.some.injEq] at h
        subst h
        by_cases hok : s = .Ok
        · subst hok
          simp only [if_pos rfl]
          constructor
          · intro hr q hq
            rcases List.mem_cons.mp hq with rfl | hq'
            · exact hf
            · exact ((ih hcm).mp hr) q hq'
          · intro hall
            exact (ih hcm).mpr (fun q hq => hall q (List.mem_cons_of_mem p hq))
        · simp only [if_neg hok]
          constructor
          · intro hr; exact absurd hr (by simp)
          · intro hall
            have h2 := hall p (List.mem_cons_self p ps)
            rw [hf] at h2
            exact absurd (Option.some.inj h2) hok

/-! ### Storage backend and the live graph -/

/-- The `IOBackend` trait (`buisson-common/src/lib.rs`), modelled as an
oracle fixing the outcome of every storage call.  The error type is kept
abstract as `String`. -/
structure IOBackend where
  query_lessons : Except String (List (Id × LessonInfo))
  add_new_lesson : Id → LessonInfo → Except String Unit
  update_existing_lesson : Id → LessonInfo → Except String Unit
  remove_lesson : Id → Except String Unit

/-- A storage call issued by a mutation (the write-through trace). -/
inductive BackendOp where
  | add (id : Id) (lesson : LessonInfo) : BackendOp
  | update (id : Id) (lesson : LessonInfo) : BackendOp
  | remove (id : Id) : BackendOp
  deriving DecidableEq, Repr

/-- `Graph` from `buisson-common/src/lib.rs` (without the owned backend,
which is passed to each operation instead). -/
structure Graph where
  nodes : List (Id × GraphNode)
  children : List (Id × List Id)
  next_id : Id
  deriving DecidableEq, Repr

/-- The current stored readiness of a node, as `compute_node_status` reads it
(`self.nodes.get(&prereq_id).unwrap().status`). -/
def Graph.statusOf (g : Graph) : Id → Option NodeStatus :=
  fun id => (alookup id g.nodes).map GraphNode.status

/-- The `for &child in &self.children...` loop of `update_node_status`,
parameterized by the recursive call. -/
def update_node_status_list (upd : Graph → Id → Option Graph) :
    Graph → List Id → Option Graph
  | g, [] => some g
  | g, c :: cs =>
    match upd g c with
    | none => none
    | some g' => update_node_status_list upd g' cs

/-- `Graph::update_node_status` from `buisson-common/src/lib.rs`: recompute
the status of `id`; if unchanged stop, otherwise store it and recurse into
every current dependent of `id`.  `fuel` bounds the depth of the cascade
(the Rust recursion is unbounded and relies on acyclicity). -/
def update_node_status (today : Int) : Nat → Graph → Id → Option Graph
  | 0, _, _ => none
  | fuel + 1, g, id =>
    match alookup id g.nodes with
    | none => none
    | some node =>
      match compute_node_status today g.statusOf
          node.lesson.direct_prerequisites node.lesson.status with
      | none => none
      | some new_status =>
        if new_status = node.status then some g
        else
          let g' : Graph :=
            { g with nodes := aupdate id (fun n => { n with status := new_status }) g.nodes }
          match alookup id g'.children with
          | none => none
          | some childs =>
            update_node_status_list (update_node_status today fuel) g' childs

/-- The `for &parent in &lesson_info.direct_prerequisites { children.get_mut
(&parent).unwrap().push(id) }` loops of `create_new_node` / `edit_node`. -/
def push_child_all (ch : List (Id × List Id)) : List Id → Id → Option (List (Id × List Id))
  | [], _ => some ch
  | p :: ps, id =>
    match alookup p ch with
    | none => none
    | some _ => push_child_all (aupdate p (fun l => l ++ [id]) ch) ps id

/-- The `children.get_mut(&prereq).unwrap().retain(|&child| child != id)`
loops of `delete_node` / `edit_node`. -/
def retain_child_all (ch : List (Id × List Id)) : List Id → Id → Option (List (Id × List Id))
  | [], _ => some ch
  | p :: ps, id =>
    match alookup p ch with
    | none => none
    | some _ =>
      retain_child_all (aupdate p (fun l => l.filter (fun c => c ≠ id)) ch) ps id

/-- `Graph::create_new_node` from `buisson-common/src/lib.rs`.  Returns the
fresh id, the updated graph and the write-through trace. -/
def create_new_node (b : IOBackend) (today : Int) (g : Graph)
    (lesson_info : LessonInfo) : Option (Id × Graph × List BackendOp) :=
  let id := g.next_id
  match push_child_all g.children lesson_info.direct_prerequisites id with
  | none => none
  | some children' =>
    match compute_node_status today g.statusOf
        lesson_info.direct_prerequisites lesson_info.status with
    | none => none
    | some node_status =>
      match b.add_new_lesson id lesson_info with
      | .error _ => none
      | .ok _ =>
        some (id,
          { nodes := ainsert id ⟨lesson_info, node_status⟩ g.nodes,
            children := ainsert id [] children',
            next_id := id + 1 },
          [.add id lesson_info])

/-- The in-place field replacement of `edit_node`: name, prerequisites and
status are replaced; the Rust code leaves `tags` untouched. -/
def replace_lesson (lesson_info : LessonInfo) (n : GraphNode) : GraphNode :=
  { n with lesson := { n.lesson with
      name := lesson_info.name,
      direct_prerequisites := lesson_info.direct_prerequisites,
      status := lesson_info.status } }

/-- `Graph::edit_node` from `buisson-common/src/lib.rs`: rewire the
children index, write through, replace name/prerequisites/status in place,
and propagate from `id`. -/
def edit_node (b : IOBackend) (today : Int) (fuel : Nat) (g : Graph) (id : Id)
    (lesson_info : LessonInfo) : Option (Graph × List BackendOp) :=
  match alookup id g.nodes with
  | none => none
  | some node =>
    match retain_child_all g.children node.lesson.direct_prerequisites id with
    | none => none
    | some ch1 =>
      match push_child_all ch1 lesson_info.direct_prerequisites id with
      | none => none
      | some ch2 =>
        match b.update_existing_lesson id lesson_info with
        | .error _ => none
        | .ok _ =>
          let g1 : Graph :=
            { nodes := aupdate id (replace_lesson lesson_info) g.nodes,
              children := ch2,
              next_id := g.next_id }
          match update_node_status today fuel g1 id with
          | none => none
          | some g2 => some (g2, [.update id lesson_info])

/-- The stripping of a deleted id from a dependent's lesson
(`child.lesson.direct_prerequisites.retain(|&parent| parent != id)`). -/
def remove_prereq (id : Id) (lsn : LessonInfo) : LessonInfo :=
  { lsn with direct_prerequisites :=
      lsn.direct_prerequisites.filter (fun p => p ≠ id) }

/-- The first dependents loop of `delete_node`: remove `id` from each
dependent's prerequisite list and write the dependent through. -/
def remove_prereq_all (b : IOBackend) (nodes : List (Id × GraphNode)) :
    List Id → Id → Option (List (Id × GraphNode) × List BackendOp)
  | [], _ => some (nodes, [])
  | c :: cs, id =>
    match alookup c nodes with
    | none => none
    | some child =>
      let newLesson : LessonInfo := remove_prereq id child.lesson
      let nodes' := aupdate c (fun n => { n with lesson := newLesson }) nodes
      match b.update_existing_lesson c newLesson with
      | .error _ => none
      | .ok _ =>
        match remove_prereq_all b nodes' cs id with
        | none => none
        | some (nodes'', tr) => some (nodes'', .update c newLesson :: tr)

/-- `Graph::delete_node` from `buisson-common/src/lib.rs`: remove the node,
unhook it from its prerequisites' dependent lists, strip it from every
dependent's prerequisite list (writing each through), re-propagate every
dependent, and issue the delete to the backend. -/
def delete_node (b : IOBackend) (today : Int) (fuel : Nat) (g : Graph) (id : Id) :
    Option (Graph × List BackendOp) :=
  match alookup id g.nodes with
  | none => none
  | some node =>
    let nodes1 := aremove id g.nodes
    match retain_child_all g.children node.lesson.direct_prerequisites id with
    | none => none
    | some ch1 =>
      match alookup id ch1 with
      | none => none
      | some childs =>
        let ch2 := aremove id ch1
        match remove_prereq_all b nodes1 childs id with
        | none => none
        | some (nodes2, tr1) =>
          match update_node_status_list (update_node_status today fuel)
              { nodes := nodes2, children := ch2, next_id := g.next_id } childs with
          | none => none
          | some g3 =>
            match b.remove_lesson id with
            | .error _ => none
            | .ok _ => some (g3, tr1 ++ [.remove id])

/-- The `for &prereq_id in ...` loop of `depends_on`, parameterized by the
recursive call. -/
def depends_on_list (dep : Id → Id → Option Bool) : List Id → Id → Option Bool
  | [], _ => some false
  | p :: ps, id2 =>
    match dep p id2 with
    | none => none
    | some true => some true
    | some false => depends_on_list dep ps id2

/-- `Graph::depends_on` from `buisson-common/src/lib.rs`: transitive
reachability through prerequisite lists, reflexive by the leading
`id1 == id2` test.  `fuel` bounds the recursion depth (the Rust recursion is
unbounded and relies on acyclicity). -/
def depends_on (g : Graph) : Nat → Id → Id → Option Bool
  | 0, _, _ => none
  | fuel + 1, id1, id2 =>
    if id1 = id2 then some true
    else
      match alookup id1 g.nodes with
      | none => none
      | some node =>
        depends_on_list (depends_on g fuel) node.lesson.direct_prerequisites id2

/-! ### The graph builder (`GraphBuilder`) -/

/-- The prerequisite loop of `get_status`, parameterized by the recursive
call; returns the collected missing prerequisites together with the extended
memo table. -/
def get_status_list
    (gs : List (Id × NodeStatus) → Id → Option (NodeStatus × List (Id × NodeStatus))) :
    List (Id × NodeStatus) → List Id → Option (List Id × List (Id × NodeStatus))
  | memo, [] => some ([], memo)
  | memo, p :: ps =>
    match gs memo p with
    | none => none
    | some (sp, memo1) =>
      match get_status_list gs memo1 ps with
      | none => none
      | some (rest, memo2) => some ((if sp = .Ok then rest else p :: rest), memo2)

/-- `GraphBuilder::get_status` from `buisson-common/src/lib.rs`: memoized
depth-first resolution of one node's status.  The memo table is an
association list extended by cons; the Rust code writes the memo field in
place, but only ever when it is still unset, so cons-extension yields the
same lookups.  `fuel` bounds the recursion depth (the Rust recursion is
unbounded and relies on acyclicity). -/
def get_status (today : Int) (infos : List (Id × LessonInfo)) :
    Nat → List (Id × NodeStatus) → Id → Option (NodeStatus × List (Id × NodeStatus))
  | 0, _, _ => none
  | fuel + 1, memo, id =>
    match alookup id memo with
    | some s => some (s, memo)
    | none =>
      match alookup id infos with
      | none => none
      | some info =>
        if info.status = .GoodEnough then some (.Ok, (id, .Ok) :: memo)
        else
          match get_status_list (get_status today infos fuel) memo
              info.direct_prerequisites with
          | none => none
          | some (missing, memo') =>
            let s : NodeStatus :=
              if missing = [] then
                (if needs_work today info.status then .Pending else .Ok)
              else .MissingPrereq missing
            some (s, (id, s) :: memo')

/-- `GraphBuilder::resolve` from `buisson-common/src/lib.rs`: call
`get_status` on every key. -/
def resolve_all (today : Int) (infos : List (Id × LessonInfo)) (fuel : Nat) :
    List (Id × NodeStatus) → List Id → Option (List (Id × NodeStatus))
  | memo, [] => some memo
  | memo, i :: rest =>
    match get_status today infos fuel memo i with
    | none => none
    | some (_, memo') => resolve_all today infos fuel memo' rest

/-- The `children.entry(parent).and_modify(push id)` pass of
`GraphBuilder::into_graph`: push `id` onto the dependent list of each of its
prerequisites that has an entry. -/
def add_children_edges (acc : List (Id × List Id)) :
    List (Id × LessonInfo) → List (Id × List Id)
  | [] => acc
  | (id, lesson) :: rest =>
      add_children_edges
        (lesson.direct_prerequisites.foldl
          (fun ch p => if (alookup p ch).isSome then aupdate p (fun l => l ++ [id]) ch else ch)
          acc) rest

/-- The maximum id of the loaded lessons (`max_id` in `into_graph`). -/
def max_key : List (Id × LessonInfo) → Option Id
  | [] => none
  | (id, _) :: rest =>
    match max_key rest with
    | none => some id
    | some m => some (max id m)

/-- Pair every loaded lesson with its resolved status (`status.unwrap()` in
`into_graph`). -/
def zip_statuses (memo : List (Id × NodeStatus)) :
    List (Id × LessonInfo) → Option (List (Id × GraphNode))
  | [] => some []
  | (id, lesson) :: rest =>
    match alookup id memo with
    | none => none
    | some s =>
      match zip_statuses memo rest with
      | none => none
      | some ns => some ((id, ⟨lesson, s⟩) :: ns)

/-- `GraphBuilder::into_graph` from `buisson-common/src/lib.rs`. -/
def into_graph (today : Int) (fuel : Nat) (infos : List (Id × LessonInfo)) :
    Option Graph :=
  match resolve_all today infos fuel [] (akeys infos) with
  | none => none
  | some memo =>
    match zip_statuses memo infos with
    | none => none
    | some nodes =>
      some { nodes := nodes,
             children := add_children_edges (infos.map (fun p => (p.1, []))) infos,
             next_id := match max_key infos with | none => 0 | some m => m + 1 }

/-- `Graph::get_from_database` from `buisson-common/src/lib.rs`: a backend
error on the bulk load is returned to the caller with `?`; otherwise the
graph is built.  The outer `Option` models a panic inside `into_graph`. -/
def get_from_database (b : IOBackend) (today : Int) (fuel : Nat) :
    Option (Except String Graph) :=
  match b.query_lessons with
  | .error e => some (.error e)
  | .ok infos => (into_graph today fuel infos).map .ok

/-! ### Scheduling-policy theorems -/

/-- **C3**.  The review-interval function satisfies `interval(0)=1`,
`interval(1)=5`, `interval(2)=15` and `interval(n)=2*interval(n-1)` for
`n>2`; `needs_work` on `Practiced{level, date}` at date `today` is true iff
`today ≥ date + interval(level)`; for level 0 it is false strictly before
`date+1` and true from `date+1` on, and for level 2 the boundary is
`date+15`. -/
theorem review_interval_and_boundary :
    days_from_level 0 = 1 ∧ days_from_level 1 = 5 ∧ days_from_level 2 = 15 ∧
    (∀ n : Nat, 2 < n → days_from_level n = 2 * days_from_level (n - 1)) ∧
    (∀ (level : Nat) (date today : Int),
      needs_work today (.Practiced level date) =
        decide (date + (days_from_level level : Int) ≤ today)) ∧
    (∀ date today : Int, today < date + 1 →
      needs_work today (.Practiced 0 date) = false) ∧
    (∀ date today : Int, date + 1 ≤ today →
      needs_work today (.Practiced 0 date) = true) ∧
    (∀ date today : Int,
      needs_work today (.Practiced 2 date) = decide (date + 15 ≤ today)) := by
  refine ⟨rfl, rfl, rfl, ?_, ?_, ?_, ?_, ?_⟩
  · intro n hn
    match n, hn with
    | (m + 3), _ => simp [days_from_level]
  · intro level date today
    simp [needs_work, good_until]
  · intro date today h
    simp only [needs_work, good_until, days_from_level]
    simp
    omega
  · intro date today h
    simp only [needs_work, good_until, days_from_level]
    simp
    omega
  · intro date today
    simp [needs_work, good_until, days_from_level]

/-- **C3 witness**: the boundary statements at concrete dates. -/
theorem review_interval_and_boundary_witness :
    2 < 5 ∧ days_from_level 5 = 2 * days_from_level 4 ∧
    (10 : Int) < 10 + 1 ∧ needs_work 10 (.Practiced 0 10) = false ∧
    (10 : Int) + 1 ≤ 11 ∧ needs_work 11 (.Practiced 0 10) = true := by
  refine ⟨by decide, review_interval_and_boundary.2.2.2.1 5 (by decide), by decide,
    review_interval_and_boundary.2.2.2.2.2.1 10 10 (by decide), by decide,
    review_interval_and_boundary.2.2.2.2.2.2.1 10 11 (by decide)⟩

/-- **C5**.  `needs_work` reads its "current date" from the ambient system
clock (`chrono::offset::Local::now()` inside the function body, modelled here
as the explicit clock-state argument `today`) rather than taking it as a
parameter of the Rust function: the result on one and the same
`PracticeStatus` value differs between two clock states, so the Rust
`fn needs_work(&self) -> bool` is not a deterministic function of the
`PracticeStatus` alone, contrary to the spec's stated requirement. -/
theorem needs_work_reads_ambient_clock :
    needs_work 0 (.Practiced 0 0) = false ∧
    needs_work 1 (.Practiced 0 0) = true := by
  constructor <;> rfl

/-- **C9**.  The prerequisite-id encoding writes exactly eight bytes per id
(`(ids_to_bytes l).length = 8 * l.length`), big-endian, in list order, and
decoding inverts it for every list of 64-bit ids. -/
theorem ids_to_bytes_length_and_roundtrip (l : List Id) :
    (ids_to_bytes l).length = 8 * l.length ∧
    ((∀ id ∈ l, id < 2 ^ 64) → ids_from_bytes (ids_to_bytes l) = l) := by
  constructor
  · induction l with
    | nil => rfl
    | cons id rest ih =>
      simp [ids_to_bytes, u64_be_bytes, ih]
      ring
  · intro hbound
    induction l with
    | nil => rfl
    | cons id rest ih =>
      have hid : id < 2 ^ 64 := hbound id (List.mem_cons_self id rest)
      have hrest : ∀ i ∈ rest, i < 2 ^ 64 :=
        fun i hi => hbound i (List.mem_cons_of_mem id hi)
      show ids_from_bytes (u64_be_bytes id ++ ids_to_bytes rest) = id :: rest
      rw [ids_from_bytes_u64_append id _ hid, ih hrest]

/-- **C9 witness**: the round trip at a concrete id list. -/
theorem ids_to_bytes_length_and_roundtrip_witness :
    (∀ id ∈ [0, 1, 2 ^ 64 - 1, 300], id < 2 ^ 64) ∧
    ids_from_bytes (ids_to_bytes [0, 1, 2 ^ 64 - 1, 300]) = [0, 1, 2 ^ 64 - 1, 300] := by
  exact ⟨by decide,
    (ids_to_bytes_length_and_roundtrip [0, 1, 2 ^ 64 - 1, 300]).2 (by decide)⟩

/-- **C10**.  In the tags-aware backend, tags are stored joined with `","`
and loaded split on `","`: an empty tags list round-trips to `[""]`, not to
`[]`, and a tag containing a comma is split into several tags. -/
theorem tags_empty_roundtrip_not_preserved :
    tags_from_text (tags_to_text []) = [[]] ∧ ([[]] : List (List Char)) ≠ [] ∧
    tags_from_text (tags_to_text [['a', ',', 'b']]) = [['a'], ['b']] := by
  refine ⟨rfl, by simp, by decide⟩

/-! ### Concrete test fixture (the five-lesson scenario of the Rust tests) -/

/-- A backend whose every call succeeds (the `DummyIOBackend` of the Rust
tests). -/
def ok_backend : IOBackend :=
  { query_lessons := .ok [],
    add_new_lesson := fun _ _ => .ok (),
    update_existing_lesson := fun _ _ => .ok (),
    remove_lesson := fun _ => .ok () }

/-- A backend whose every call fails. -/
def fail_backend : IOBackend :=
  { query_lessons := .error "db down",
    add_new_lesson := fun _ _ => .error "db down",
    update_existing_lesson := fun _ _ => .error "db down",
    remove_lesson := fun _ => .error "db down" }

/-- The five-lesson fixture of the Rust tests (`test_dummy_backend`). -/
def fixture_infos : List (Id × LessonInfo) :=
  [(0, ⟨"Test 0", [1], .NotPracticed, []⟩),
   (1, ⟨"Test 1", [], .GoodEnough, []⟩),
   (2, ⟨"Test 2", [1, 0, 3], .GoodEnough, []⟩),
   (3, ⟨"Test 3", [0], .NotPracticed, []⟩),
   (4, ⟨"Test 4", [2], .NotPracticed, []⟩)]

/-- The graph built from `fixture_infos` (the value of
`into_graph 0 10 fixture_infos`). -/
def fixture_graph : Graph :=
  { nodes :=
      [(0, ⟨⟨"Test 0", [1], .NotPracticed, []⟩, .Pending⟩),
       (1, ⟨⟨"Test 1", [], .GoodEnough, []⟩, .Ok⟩),
       (2, ⟨⟨"Test 2", [1, 0, 3], .GoodEnough, []⟩, .Ok⟩),
       (3, ⟨⟨"Test 3", [0], .NotPracticed, []⟩, .MissingPrereq [0]⟩),
       (4, ⟨⟨"Test 4", [2], .NotPracticed, []⟩, .Pending⟩)],
    children := [(0, [2, 3]), (1, [0, 2]), (2, [4]), (3, [2]), (4, [])],
    next_id := 5 }

/-- A rank function witnessing acyclicity of the fixture's prerequisite
relation. -/
def fixture_rank : Id → Nat :=
  fun id => if id = 1 then 0 else if id = 0 then 1 else if id = 3 then 2
            else if id = 2 then 3 else 4

/-! ### C6: the propagation short-circuit -/

/-- **C6**.  If recomputing a node's readiness yields the status already
stored, `update_node_status` returns the graph unchanged (`some g`, so every
node's lesson and readiness, the children index and the next-id counter are
all exactly as before); one unit of fuel suffices, so no recursion into the
node's dependents takes place. -/
theorem update_node_status_no_change (today : Int) (fuel : Nat) (g : Graph)
    (id : Id) (node : GraphNode) (hn : alookup id g.nodes = some node)
    (hc : compute_node_status today g.statusOf node.lesson.direct_prerequisites
      node.lesson.status = some node.status) :
    update_node_status today (fuel + 1) g id = some g := by
  simp [update_node_status, hn, hc]

/-- **C6 witness**: node 4 of the fixture, whose recomputed status equals the
stored `Pending`. -/
theorem update_node_status_no_change_witness :
    alookup 4 fixture_graph.nodes =
      some ⟨⟨"Test 4", [2], .NotPracticed, []⟩, .Pending⟩ ∧
    compute_node_status 0 fixture_graph.statusOf [2] .NotPracticed =
      some .Pending ∧
    update_node_status 0 1 fixture_graph 4 = some fixture_graph :=
  ⟨by decide, by decide,
    update_node_status_no_change 0 0 fixture_graph 4
      ⟨⟨"Test 4", [2], .NotPracticed, []⟩, .Pending⟩ (by decide) (by decide)⟩

/-! ### C8: storage failure handling -/

/-- **C8**.  A backend failure on the initial bulk load is returned to the
caller (`get_from_database` yields the backend's error, constructing no
graph), while a backend failure on the write-through of `create_new_node`,
`edit_node` or `delete_node` is a panic (`none`): the operation never returns
normally with a divergent in-memory graph. -/
theorem storage_failure_handling (b : IOBackend) (today : Int) (fuel : Nat) :
    (∀ e, b.query_lessons = .error e →
      get_from_database b today fuel = some (.error e)) ∧
    (∀ (g : Graph) (info : LessonInfo) e,
      b.add_new_lesson g.next_id info = .error e →
      create_new_node b today g info = none) ∧
    (∀ (g : Graph) (id : Id) (info : LessonInfo) e,
      b.update_existing_lesson id info = .error e →
      edit_node b today fuel g id info = none) ∧
    (∀ (g : Graph) (id : Id) e,
      b.remove_lesson id = .error e →
      delete_node b today fuel g id = none) := by
  refine ⟨?_, ?_, ?_, ?_⟩
  · intro e he
    simp [get_from_database, he]
  · intro g info e he
    cases h1 : push_child_all g.children info.direct_prerequisites g.next_id with
    | none => simp [create_new_node, h1]
    | some ch =>
      cases h2 : compute_node_status today g.statusOf
          info.direct_prerequisites info.status with
      | none => simp [create_new_node, h1, h2]
      | some s => simp [create_new_node, h1, h2, he]
  · intro g id info e he
    cases h1 : alookup id g.nodes with
    | none => simp [edit_node, h1]
    | some node =>
      cases h2 : retain_child_all g.children node.lesson.direct_prerequisites id with
      | none => simp [edit_node, h1, h2]
      | some ch1 =>
        cases h3 : push_child_all ch1 info.direct_prerequisites id with
        | none => simp [edit_node, h1, h2, h3]
        | some ch2 => simp [edit_node, h1, h2, h3, he]
  · intro g id e he
    cases h1 : alookup id g.nodes with
    | none => simp [delete_node, h1]
    | some node =>
      cases h2 : retain_child_all g.children node.lesson.direct_prerequisites id with
      | none => simp [delete_node, h1, h2]
      | some ch1 =>
        cases h3 : alookup id ch1 with
        | none => simp [delete_node, h1, h2, h3]
        | some childs =>
          cases h4 : remove_prereq_all b (aremove id g.nodes) childs id with
          | none => simp [delete_node, h1, h2, h3, h4]
          | some res =>
            cases h5 : update_node_status_list (update_node_status today fuel)
                { nodes := res.1, children := aremove id ch1, next_id := g.next_id }
                childs with
            | none => simp [delete_node, h1, h2, h3, h4, h5]
            | some g3 => simp [delete_node, h1, h2, h3, h4, h5, he]

/-- **C8 witness**: the failing backend at the fixture graph. -/
theorem storage_failure_handling_witness :
    fail_backend.query_lessons = .error "db down" ∧
    get_from_database fail_backend 0 1 = some (.error "db down") ∧
    fail_backend.remove_lesson 4 = .error "db down" ∧
    delete_node fail_backend 0 3 fixture_graph 4 = none :=
  ⟨rfl, (storage_failure_handling fail_backend 0 1).1 "db down" rfl, rfl,
    (storage_failure_handling fail_backend 0 3).2.2.2 fixture_graph 4 "db down" rfl⟩

/-! ### C7: depends_on is reflexive and transitive -/

/-- One prerequisite edge: `y` is a direct prerequisite of `x`. -/
def prereq_step (g : Graph) (x y : Id) : Prop :=
  ∃ node, alookup x g.nodes = some node ∧ y ∈ node.lesson.direct_prerequisites

/-- Transitive (reflexive) prerequisite reachability. -/
def Reaches (g : Graph) : Id → Id → Prop := Relation.ReflTransGen (prereq_step g)

/-- Acyclicity of the prerequisite relation, witnessed by a rank function
strictly decreasing along prerequisite edges. -/
@[reducible] def RankOn (g : Graph) (rank : Id → Nat) : Prop :=
  ∀ p ∈ g.nodes, ∀ q ∈ p.2.lesson.direct_prerequisites, rank q < rank p.1

/-- Every referenced prerequisite id is present in the node map. -/
@[reducible] def NodesClosed (g : Graph) : Prop :=
  ∀ p ∈ g.nodes, ∀ q ∈ p.2.lesson.direct_prerequisites, (alookup q g.nodes).isSome

theorem depends_on_list_sound (dep : Id → Id → Option Bool) (b : Id) :
    ∀ ps, depends_on_list dep ps b = some true →
      ∃ p ∈ ps, dep p b = some true := by
  intro ps
  induction ps with
  | nil => intro h; exact absurd h (by simp [depends_on_list])
  | cons p ps ih =>
    intro h
    simp only [depends_on_list] at h
    cases hd : dep p b with
    | none => rw [hd] at h; exact absurd h (by simp)
    | some r =>
      cases r with
      | true => exact ⟨p, List.mem_cons_self p ps, hd⟩
      | false =>
        rw [hd] at h
        obtain ⟨q, hq, hdq⟩ := ih h
        exact ⟨q, List.mem_cons_of_mem p hq, hdq⟩

theorem depends_on_sound (g : Graph) :
    ∀ fuel a b, depends_on g fuel a b = some true → Reaches g a b := by
  intro fuel
  induction fuel with
  | zero => intro a b h; exact absurd h (by simp [depends_on])
  | succ fuel ih =>
    intro a b h
    by_cases hab : a = b
    · subst hab; exact Relation.ReflTransGen.refl
    · simp only [depends_on, if_neg hab] at h
      cases hn : alookup a g.nodes with
      | none => rw [hn] at h; exact absurd h (by simp)
      | some node =>
        rw [hn] at h
        obtain ⟨p, hp, hdp⟩ := depends_on_list_sound (depends_on g fuel) b _ h
        exact Relation.ReflTransGen.head ⟨node, hn, hp⟩ (ih p b hdp)

theorem depends_on_list_total (dep : Id → Id → Option Bool) (b : Id) :
    ∀ ps, (∀ p ∈ ps, ∃ r, dep p b = some r) →
      ∃ r, depends_on_list dep ps b = some r := by
  intro ps
  induction ps with
  | nil => intro _; exact ⟨false, rfl⟩
  | cons p ps ih =>
    intro h
    obtain ⟨r, hr⟩ := h p (List.mem_cons_self p ps)
    cases r with
    | true => exact ⟨true, by simp [depends_on_list, hr]⟩
    | false =>
      obtain ⟨r', hr'⟩ := ih (fun q hq => h q (List.mem_cons_of_mem p hq))
      exact ⟨r', by simp [depends_on_list, hr, hr']⟩

theorem depends_on_total (g : Graph) (rank : Id → Nat) (hR : RankOn g rank)
    (hC : NodesClosed g) :
    ∀ fuel a b, rank a < fuel → (alookup a g.nodes).isSome →
      ∃ r, depends_on g fuel a b = some r := by
  intro fuel
  induction fuel with
  | zero => intro a b h _; exact absurd h (Nat.not_lt_zero _)
  | succ fuel ih =>
    intro a b hra hpa
    by_cases hab : a = b
    · subst hab; exact ⟨true, by simp [depends_on]⟩
    · obtain ⟨node, hn⟩ := Option.isSome_iff_exists.mp hpa
      have hmem := alookup_mem hn
      have hfa : rank a ≤ fuel := Nat.lt_succ_iff.mp hra
      have hlist : ∀ p ∈ node.lesson.direct_prerequisites,
          ∃ r, depends_on g fuel p b = some r := by
        intro p hp
        exact ih p b (lt_of_lt_of_le (hR _ hmem p hp) hfa) (hC _ hmem p hp)
      obtain ⟨r, hr⟩ := depends_on_list_total (depends_on g fuel) b _ hlist
      exact ⟨r, by simp [depends_on, hab, hn, hr]⟩

theorem depends_on_list_complete (dep : Id → Id → Option Bool) (c : Id) :
    ∀ ps p, p ∈ ps → dep p c = some true →
      (∀ q ∈ ps, ∃ r, dep q c = some r) →
      depends_on_list dep ps c = some true := by
  intro ps
  induction ps with
  | nil => intro p hp _ _; simp at hp
  | cons q ps ih =>
    intro p hp hptrue hall
    obtain ⟨r, hr⟩ := hall q (List.mem_cons_self q ps)
    cases r with
    | true => simp [depends_on_list, hr]
    | false =>
      rcases List.mem_cons.mp hp with rfl | hp'
      · rw [hr] at hptrue; exact absurd hptrue (by simp)
      · have hrest := ih p hp' hptrue
          (fun qq hqq => hall qq (List.mem_cons_of_mem q hqq))
        simp [depends_on_list, hr, hrest]

theorem depends_on_complete (g : Graph) (rank : Id → Nat) (hR : RankOn g rank)
    (hC : NodesClosed g) :
    ∀ fuel a c, rank a < fuel → Reaches g a c →
      depends_on g fuel a c = some true := by
  intro fuel
  induction fuel with
  | zero => intro a c h _; exact absurd h (Nat.not_lt_zero _)
  | succ fuel ih =>
    intro a c hra hreach
    by_cases hac : a = c
    · subst hac; simp [depends_on]
    · rcases Relation.ReflTransGen.cases_head hreach with heq | ⟨x, hstep, hxc⟩
      · exact absurd heq hac
      · obtain ⟨node, hn, hx⟩ := hstep
        have hmem := alookup_mem hn
        have hfa : rank a ≤ fuel := Nat.lt_succ_iff.mp hra
        have hall : ∀ q ∈ node.lesson.direct_prerequisites,
            ∃ r, depends_on g fuel q c = some r :=
          fun q hq => depends_on_total g rank hR hC fuel q c
            (lt_of_lt_of_le (hR _ hmem q hq) hfa) (hC _ hmem q hq)
        have hx_true : depends_on g fuel x c = some true :=
          ih x c (lt_of_lt_of_le (hR _ hmem x hx) hfa) hxc
        have hlist := depends_on_list_complete (depends_on g fuel) c _ x hx hx_true hall
        simp [depends_on, hac, hn, hlist]

/-- **C7**.  `depends_on a a` returns `true` for every id (in particular
every id present in the graph), and on a graph whose prerequisite relation
is acyclic (witnessed by a rank function) and closed, `depends_on` is
transitive: whenever `depends_on a b` and `depends_on b c` return `true`,
the (terminating) call `depends_on a c` returns `true`. -/
theorem depends_on_refl_and_trans (g : Graph) :
    (∀ (a : Id) (fuel : Nat), depends_on g (fuel + 1) a a = some true) ∧
    (∀ rank : Id → Nat, RankOn g rank → NodesClosed g →
      ∀ (a b c : Id) (fa fb fc : Nat),
        depends_on g fa a b = some true → depends_on g fb b c = some true →
        rank a < fc → depends_on g fc a c = some true) := by
  constructor
  · intro a fuel; simp [depends_on]
  · intro rank hR hC a b c fa fb fc hab hbc hfc
    exact depends_on_complete g rank hR hC fc a c hfc
      ((depends_on_sound g fa a b hab).trans (depends_on_sound g fb b c hbc))

/-- **C7 witness**: transitivity through the fixture's chain 4 → 2 → 1. -/
theorem depends_on_refl_and_trans_witness :
    RankOn fixture_graph fixture_rank ∧ NodesClosed fixture_graph ∧
    depends_on fixture_graph 5 4 2 = some true ∧
    depends_on fixture_graph 5 2 1 = some true ∧
    fixture_rank 4 < 6 ∧
    depends_on fixture_graph 6 4 1 = some true :=
  ⟨by decide, by decide, by decide, by decide, by decide,
    (depends_on_refl_and_trans fixture_graph).2 fixture_rank (by decide)
      (by decide) 4 2 1 5 5 6 (by decide) (by decide) (by decide)⟩

/-! ### C2: bulk resolve consistency -/

/-- Every memoized status agrees with the recomputation rule read back
through the memo table itself. -/
def MemoConsistent (today : Int) (infos : List (Id × LessonInfo))
    (memo : List (Id × NodeStatus)) : Prop :=
  ∀ id s, alookup id memo = some s →
    ∃ info, alookup id infos = some info ∧
      compute_node_status today (fun p => alookup p memo)
        info.direct_prerequisites info.status = some s

/-- `m'` preserves every binding of `m`. -/
def MemoExtends (m m' : List (Id × NodeStatus)) : Prop :=
  ∀ id s, alookup id m = some s → alookup id m' = some s

/-- Acyclicity of the loaded records, witnessed by a rank function. -/
@[reducible] def RankOnInfos (infos : List (Id × LessonInfo)) (rank : Id → Nat) : Prop :=
  ∀ p ∈ infos, ∀ q ∈ p.2.direct_prerequisites, rank q < rank p.1

theorem MemoExtends_refl (m : List (Id × NodeStatus)) : MemoExtends m m :=
  fun _ _ h => h

theorem MemoExtends_trans {m1 m2 m3 : List (Id × NodeStatus)}
    (h12 : MemoExtends m1 m2) (h23 : MemoExtends m2 m3) : MemoExtends m1 m3 :=
  fun i s h => h23 i s (h12 i s h)

theorem MemoExtends.cons_fresh {m : List (Id × NodeStatus)} {id : Id}
    {s : NodeStatus} (h : alookup id m = none) : MemoExtends m ((id, s) :: m) := by
  intro j s' hj
  rw [alookup_cons]
  by_cases hij : id = j
  · subst hij; rw [h] at hj; exact absurd hj (by simp)
  · simp [hij, hj]

theorem MemoConsistent.mono {today : Int} {infos : List (Id × LessonInfo)}
    {m m' : List (Id × NodeStatus)} (hc : MemoConsistent today infos m)
    (hext : MemoExtends m m')
    (hkeep : ∀ id s, alookup id m' = some s → alookup id m = some s) :
    MemoConsistent today infos m' := by
  intro id s h
  obtain ⟨info, hinfo, hcomp⟩ := hc id s (hkeep id s h)
  exact ⟨info, hinfo, compute_node_status_mono hext hcomp⟩

/-- The specification of one `get_status` call: the memo only grows, stays
consistent, ends up binding the requested id, and every id it newly binds
has rank at most that of the requested id. -/
def GetStatusSpec (today : Int) (infos : List (Id × LessonInfo)) (rank : Id → Nat)
    (gs : List (Id × NodeStatus) → Id → Option (NodeStatus × List (Id × NodeStatus))) :
    Prop :=
  ∀ memo id s memo', MemoConsistent today infos memo →
    gs memo id = some (s, memo') →
    MemoExtends memo memo' ∧ MemoConsistent today infos memo' ∧
    alookup id memo' = some s ∧
    (∀ j, alookup j memo = none → alookup j memo' ≠ none → rank j ≤ rank id)

theorem get_status_list_spec {today : Int} {infos : List (Id × LessonInfo)}
    {rank : Id → Nat}
    {gs : List (Id × NodeStatus) → Id → Option (NodeStatus × List (Id × NodeStatus))}
    (hgs : GetStatusSpec today infos rank gs) :
    ∀ ps memo missing memo', MemoConsistent today infos memo →
      get_status_list gs memo ps = some (missing, memo') →
      MemoExtends memo memo' ∧ MemoConsistent today infos memo' ∧
      collect_missing (fun p => alookup p memo') ps = some missing ∧
      (∀ j, alookup j memo = none → alookup j memo' ≠ none →
        ∃ p ∈ ps, rank j ≤ rank p) := by
  intro ps
  induction ps with
  | nil =>
    intro memo missing memo' hmc h
    simp only [get_status_list, Option.some.injEq, Prod.mk.injEq] at h
    obtain ⟨h1, h2⟩ := h
    subst h1; subst h2
    refine ⟨MemoExtends_refl memo, hmc, rfl, ?_⟩
    intro j hnone hsome
    exact absurd hnone hsome
  | cons p ps ih =>
    intro memo missing memo' hmc h
    simp only [get_status_list] at h
    cases hgp : gs memo p with
    | none => rw [hgp] at h; exact absurd h (by simp)
    | some v =>
      obtain ⟨sp, memo1⟩ := v
      rw [hgp] at h
      dsimp only at h
      obtain ⟨E1, C1, L1, R1⟩ := hgs memo p sp memo1 hmc hgp
      cases hrest : get_status_list gs memo1 ps with
      | none => rw [hrest] at h; exact absurd h (by simp)
      | some w =>
        obtain ⟨rest, memo2⟩ := w
        rw [hrest] at h
        dsimp only at h
        simp only [Option.some.injEq, Prod.mk.injEq] at h
        obtain ⟨h1, h2⟩ := h
        obtain ⟨E2, C2, CM2, R2⟩ := ih memo1 rest memo2 C1 hrest
        subst h2
        subst h1
        refine ⟨MemoExtends_trans E1 E2, C2, ?_, ?_⟩
        · have hp2 : alookup p memo2 = some sp := E2 p sp L1
          simp only [collect_missing, hp2, CM2]
        · intro j hnone hsome
          by_cases h1j : alookup j memo1 = none
          · obtain ⟨q, hq, hrq⟩ := R2 j h1j hsome
            exact ⟨q, List.mem_cons_of_mem p hq, hrq⟩
          · exact ⟨p, List.mem_cons_self p ps, R1 j hnone h1j⟩

theorem get_status_spec (today : Int) (infos : List (Id × LessonInfo))
    (rank : Id → Nat) (hR : RankOnInfos infos rank) :
    ∀ fuel, GetStatusSpec today infos rank (get_status today infos fuel) := by
  intro fuel
  induction fuel with
  | zero =>
    intro memo id s memo' _ h
    exact absurd h (by simp [get_status])
  | succ fuel ih =>
    intro memo id s memo' hmc h
    simp only [get_status] at h
    cases hmem : alookup id memo with
    | some s0 =>
      rw [hmem] at h
      dsimp only at h
      simp only [Option.some.injEq, Prod.mk.injEq] at h
      obtain ⟨h1, h2⟩ := h
      subst h1; subst h2
      refine ⟨MemoExtends_refl memo, hmc, hmem, ?_⟩
      intro j hnone hsome
      exact absurd hnone hsome
    | none =>
      rw [hmem] at h
      dsimp only at h
      cases hinfo : alookup id infos with
      | none => rw [hinfo] at h; exact absurd h (by simp)
      | some info =>
        rw [hinfo] at h
        dsimp only at h
        by_cases hge : info.status = .GoodEnough
        · rw [if_pos hge] at h
          simp only [Option.some.injEq, Prod.mk.injEq] at h
          obtain ⟨h1, h2⟩ := h
          subst h1
          subst h2
          have hext : MemoExtends memo ((id, NodeStatus.Ok) :: memo) :=
            MemoExtends.cons_fresh hmem
          refine ⟨hext, ?_, by simp [alookup_cons], ?_⟩
          · intro j s' hj
            rw [alookup_cons] at hj
            by_cases hij : id = j
            · subst hij
              simp at hj
              refine ⟨info, hinfo, ?_⟩
              simp [compute_node_status, hge, ← hj]
            · rw [if_neg hij] at hj
              obtain ⟨info', hinfo', hcomp'⟩ := hmc j s' hj
              exact ⟨info', hinfo', compute_node_status_mono hext hcomp'⟩
          · intro j hnone hsome
            rw [alookup_cons] at hsome
            by_cases hij : id = j
            · subst hij; exact le_refl _
            · rw [if_neg hij] at hsome; exact absurd hnone hsome
        · rw [if_neg hge] at h
          cases hlist : get_status_list (get_status today infos fuel) memo
              info.direct_prerequisites with
          | none => rw [hlist] at h; exact absurd h (by simp)
          | some v =>
            obtain ⟨missing, memo1⟩ := v
            rw [hlist] at h
            dsimp only at h
            simp only [Option.some.injEq, Prod.mk.injEq] at h
            obtain ⟨h1, h2⟩ := h
            rw [h1] at h2
            obtain ⟨E1, C1, CM1, R1⟩ :=
              get_status_list_spec ih _ memo missing memo1 hmc hlist
            have hmeminfo := alookup_mem hinfo
            have hfresh : alookup id memo1 = none := by
              by_contra hne
              obtain ⟨p, hp, hpr⟩ := R1 id hmem hne
              exact absurd (lt_of_le_of_lt hpr (hR _ hmeminfo p hp)) (lt_irrefl _)
            have hext1 : MemoExtends memo1 ((id, s) :: memo1) :=
              MemoExtends.cons_fresh hfresh
            have hidnotpr : id ∉ info.direct_prerequisites := by
              intro hmemid
              exact absurd (hR _ hmeminfo id hmemid) (lt_irrefl _)
            subst h2
            have hcomp : compute_node_status today
                (fun p => alookup p ((id, s) :: memo1))
                info.direct_prerequisites info.status = some s := by
              have hcm' : collect_missing (fun p => alookup p ((id, s) :: memo1))
                  info.direct_prerequisites = some missing := by
                have hco : collect_missing (fun p => alookup p ((id, s) :: memo1))
                    info.direct_prerequisites =
                    collect_missing (fun p => alookup p memo1)
                      info.direct_prerequisites := by
                  apply collect_missing_congr
                  intro p hp
                  show alookup p ((id, s) :: memo1) = alookup p memo1
                  rw [alookup_cons]
                  have : id ≠ p := fun he => hidnotpr (he ▸ hp)
                  simp [this]
                rw [hco]
                exact CM1
              simp only [compute_node_status, if_neg hge, hcm']
              rw [← h1]
            refine ⟨MemoExtends_trans E1 hext1, ?_, by simp [alookup_cons], ?_⟩
            · intro j s' hj
              rw [alookup_cons] at hj
              by_cases hij : id = j
              · subst hij
                simp at hj
                subst hj
                exact ⟨info, hinfo, hcomp⟩
              · rw [if_neg hij] at hj
                obtain ⟨info', hinfo', hcomp'⟩ := C1 j s' hj
                exact ⟨info', hinfo', compute_node_status_mono hext1 hcomp'⟩
            · intro j hnone hsome
              rw [alookup_cons] at hsome
              by_cases hij : id = j
              · subst hij; exact le_refl _
              · rw [if_neg hij] at hsome
                obtain ⟨p, hp, hpr⟩ := R1 j hnone hsome
                exact le_of_lt (lt_of_le_of_lt hpr (hR _ hmeminfo p hp))

theorem resolve_all_spec (today : Int) (infos : List (Id × LessonInfo))
    (rank : Id → Nat) (hR : RankOnInfos infos rank) (fuel : Nat) :
    ∀ ids memo memo', MemoConsistent today infos memo →
      resolve_all today infos fuel memo ids = some memo' →
      MemoExtends memo memo' ∧ MemoConsistent today infos memo' ∧
      ∀ i ∈ ids, (alookup i memo').isSome := by
  intro ids
  induction ids with
  | nil =>
    intro memo memo' hmc h
    simp only [resolve_all, Option.some.injEq] at h
    subst h
    exact ⟨MemoExtends_refl memo, hmc, by simp⟩
  | cons i ids ih =>
    intro memo memo' hmc h
    simp only [resolve_all] at h
    cases hg : get_status today infos fuel memo i with
    | none => rw [hg] at h; exact absurd h (by simp)
    | some v =>
      obtain ⟨s, memo1⟩ := v
      rw [hg] at h
      dsimp only at h
      obtain ⟨E1, C1, L1, _⟩ := get_status_spec today infos rank hR fuel memo i s memo1 hmc hg
      obtain ⟨E2, C2, A2⟩ := ih memo1 memo' C1 h
      refine ⟨MemoExtends_trans E1 E2, C2, ?_⟩
      intro j hj
      rcases List.mem_cons.mp hj with rfl | hj'
      · rw [E2 j s L1]; rfl
      · exact A2 j hj'

/-- **C2**.  For an acyclic lesson set (witnessed by a rank function), after
the bulk resolve succeeds, every node is assigned a status, and that status
is `Ok` iff the lesson is `GoodEnough`, or `needs_work` is false and every
direct prerequisite's status is `Ok`; in particular a `GoodEnough` lesson is
assigned `Ok` (never `MissingPrereq`), irrespective of its prerequisites. -/
theorem resolve_consistency (today : Int) (infos : List (Id × LessonInfo))
    (rank : Id → Nat) (hR : RankOnInfos infos rank) (fuel : Nat)
    (memo : List (Id × NodeStatus))
    (hres : resolve_all today infos fuel [] (akeys infos) = some memo) :
    ∀ id info, alookup id infos = some info →
      ∃ s, alookup id memo = some s ∧
        (info.status = .GoodEnough → s = .Ok) ∧
        (s = .Ok ↔ (info.status = .GoodEnough ∨
          (needs_work today info.status = false ∧
           ∀ p ∈ info.direct_prerequisites, alookup p memo = some .Ok))) := by
  have hmc0 : MemoConsistent today infos [] := by
    intro id s h
    exact absurd h (by simp [alookup])
  obtain ⟨_, hmc, hall⟩ :=
    resolve_all_spec today infos rank hR fuel (akeys infos) [] memo hmc0 hres
  intro id info hinfo
  obtain ⟨s, hs⟩ := Option.isSome_iff_exists.mp (hall id (mem_keys_of_alookup hinfo))
  obtain ⟨info', hinfo', hcomp⟩ := hmc id s hs
  rw [hinfo] at hinfo'
  injection hinfo' with hinfo'
  subst hinfo'
  refine ⟨s, hs, ?_⟩
  simp only [compute_node_status] at hcomp
  by_cases hge : info.status = .GoodEnough
  · rw [if_pos hge] at hcomp
    injection hcomp with hcomp
    constructor
    · intro _; exact hcomp.symm
    · rw [← hcomp]
      simp [hge]
  · rw [if_neg hge] at hcomp
    cases hcm : collect_missing (fun p => alookup p memo)
        info.direct_prerequisites with
    | none => rw [hcm] at hcomp; exact absurd hcomp (by simp)
    | some missing =>
      rw [hcm] at hcomp
      injection hcomp with hcomp
      constructor
      · intro h; exact absurd h hge
      · constructor
        · intro hok
          right
          by_cases hmiss : missing = []
          · rw [if_pos hmiss] at hcomp
            refine ⟨?_, (collect_missing_nil_iff hcm).mp hmiss⟩
            by_cases hnw : needs_work today info.status
            · rw [if_pos hnw] at hcomp
              rw [← hcomp] at hok
              exact absurd hok (by simp)
            · simpa using hnw
          · rw [if_neg hmiss] at hcomp
            rw [← hcomp] at hok
            exact absurd hok (by simp)
        · intro hr
          rcases hr with hge' | ⟨hnw, hallok⟩
          · exact absurd hge' hge
          · have hmiss : missing = [] := (collect_missing_nil_iff hcm).mpr hallok
            rw [if_pos hmiss] at hcomp
            rw [hnw] at hcomp
            simp only [Bool.false_eq_true, if_neg] at hcomp
            exact hcomp.symm

/-- The memo table produced by resolving the fixture. -/
def fixture_memo : List (Id × NodeStatus) :=
  [(4, .Pending), (3, .MissingPrereq [0]), (2, .Ok), (0, .Pending), (1, .Ok)]

/-- Lesson 2 of the fixture: `GoodEnough` with prerequisites `[1, 0, 3]`. -/
def fixture_lesson2 : LessonInfo := ⟨"Test 2", [1, 0, 3], .GoodEnough, []⟩

/-- **C2 witness**: the resolved fixture; lesson 2 is `GoodEnough` with the
not-`Ok` prerequisites 0 and 3 and still resolves to `Ok`. -/
theorem resolve_consistency_witness :
    RankOnInfos fixture_infos fixture_rank ∧
    resolve_all 0 fixture_infos 10 [] (akeys fixture_infos) = some fixture_memo ∧
    alookup 2 fixture_infos = some fixture_lesson2 ∧
    (∃ s, alookup 2 fixture_memo = some s ∧
      (fixture_lesson2.status = .GoodEnough → s = .Ok) ∧
      (s = .Ok ↔ (fixture_lesson2.status = .GoodEnough ∨
        (needs_work 0 fixture_lesson2.status = false ∧
         ∀ p ∈ fixture_lesson2.direct_prerequisites,
           alookup p fixture_memo = some .Ok)))) :=
  ⟨by decide, by decide, by decide,
    resolve_consistency 0 fixture_infos fixture_rank (by decide) 10 fixture_memo
      (by decide) 2 fixture_lesson2 (by decide)⟩

/-! ### C1/C4 infrastructure: graph invariants and the propagation lemma -/

theorem akeys_aupdate (k : Id) (f : β → β) (l : List (Id × β)) :
    akeys (aupdate k f l) = akeys l := by
  induction l with
  | nil => rfl
  | cons p l ih =>
    cases p with
    | mk a v =>
      by_cases h : a = k
      · rw [aupdate_cons, if_pos h]; simp [akeys] at ih ⊢; exact ih
      · rw [aupdate_cons, if_neg h]; simp [akeys] at ih ⊢; exact ih

theorem alookup_aupdate_isSome (k k' : Id) (f : β → β) (l : List (Id × β)) :
    (alookup k' (aupdate k f l)).isSome = (alookup k' l).isSome := by
  by_cases h : k = k'
  · subst h; rw [alookup_aupdate_self]; cases alookup k l <;> rfl
  · rw [alookup_aupdate_ne _ _ _ _ h]

theorem mem_aupdate {k : Id} {f : β → β} {l : List (Id × β)} {p : Id × β}
    (h : p ∈ aupdate k f l) :
    (p ∈ l ∧ p.1 ≠ k) ∨ ∃ v, (k, v) ∈ l ∧ p = (k, f v) := by
  obtain ⟨q, hq, he⟩ := List.mem_map.mp h
  by_cases hk : q.1 = k
  · right
    refine ⟨q.2, ?_, ?_⟩
    · rw [← hk]; exact hq
    · rw [if_pos hk] at he; rw [← he, hk]
  · left
    rw [if_neg hk] at he
    subst he
    exact ⟨hq, hk⟩

theorem filter_idem (P : α → Bool) (l : List α) :
    (l.filter P).filter P = l.filter P := by
  induction l with
  | nil => rfl
  | cons a l ih =>
    by_cases h : P a
    · simp [List.filter, h, ih]
    · simp only [List.filter, h]
      simp only [Bool.false_eq_true, if_neg] at ih ⊢
      exact ih

theorem mem_getD_some {o : Option (List Id)} {y : Id}
    (h : y ∈ o.getD []) : ∃ l, o = some l ∧ y ∈ l := by
  cases o with
  | none => simp at h
  | some l => exact ⟨l, rfl, h⟩

/-- The dependent list of `q` as `update_node_status` reads it. -/
@[reducible] def childrenOf (g : Graph) (q : Id) : List Id :=
  (alookup q g.children).getD []

/-- The prerequisite list of a present node (and `[]` for an absent one). -/
@[reducible] def prereqsOfG (g : Graph) (y : Id) : List Id :=
  ((alookup y g.nodes).map (fun n => n.lesson.direct_prerequisites)).getD []

/-- Invariant 1 of the spec: every node appears in the dependent list of
each of its direct prerequisites. -/
@[reducible] def ChildrenComplete (g : Graph) : Prop :=
  ∀ p ∈ g.nodes, ∀ q ∈ p.2.lesson.direct_prerequisites, p.1 ∈ childrenOf g q

/-- Converse adjacency soundness: every entry of a dependent list really
lists its key as a direct prerequisite. -/
@[reducible] def ChildrenSound (g : Graph) : Prop :=
  ∀ c ∈ g.children, ∀ y ∈ c.2,
    (alookup y g.nodes).isSome ∧ c.1 ∈ prereqsOfG g y

/-- Invariant 2 of the spec: every node has a (possibly empty) dependent
list. -/
@[reducible] def NodeHasChildEntry (g : Graph) : Prop :=
  ∀ p ∈ g.nodes, (alookup p.1 g.children).isSome

/-- Every key of the children index is a node of the graph. -/
@[reducible] def ChildKeysSound (g : Graph) : Prop :=
  ∀ c ∈ g.children, (alookup c.1 g.nodes).isSome

/-- Every node id is below the allocator's next id. -/
@[reducible] def KeysBelow (g : Graph) : Prop :=
  ∀ p ∈ g.nodes, p.1 < g.next_id

/-- No node lists itself as a direct prerequisite (a consequence of
acyclicity). -/
@[reducible] def Irrefl (g : Graph) : Prop :=
  ∀ p ∈ g.nodes, p.1 ∉ p.2.lesson.direct_prerequisites

/-- The structural well-formedness invariants of a `Graph` (unique `HashMap`
keys, invariants 1–2 of the spec in both directions, closed prerequisite
ids, fresh allocator, irreflexivity). -/
@[reducible] def WF (g : Graph) : Prop :=
  (akeys g.nodes).Nodup ∧ (akeys g.children).Nodup ∧ ChildrenComplete g ∧
  ChildrenSound g ∧ NodeHasChildEntry g ∧ ChildKeysSound g ∧ NodesClosed g ∧
  KeysBelow g ∧ Irrefl g

/-- Invariant 3 of the spec, at a single node: the stored readiness equals
what the recomputation rule currently produces. -/
def consistent_at (today : Int) (g : Graph) (y : Id) : Prop :=
  ∀ node, alookup y g.nodes = some node →
    compute_node_status today g.statusOf node.lesson.direct_prerequisites
      node.lesson.status = some node.status

/-- Invariant 3 of the spec, for the whole graph, in decidable form. -/
@[reducible] def ConsistentG (today : Int) (g : Graph) : Prop :=
  ∀ p ∈ g.nodes, compute_node_status today g.statusOf
    p.2.lesson.direct_prerequisites p.2.lesson.status = some p.2.status

/-- Lookup-based form of `ChildrenComplete`. -/
def CCl (g : Graph) : Prop :=
  ∀ y node, alookup y g.nodes = some node →
    ∀ q ∈ node.lesson.direct_prerequisites, y ∈ childrenOf g q

/-- Lookup-based form of `Irrefl`. -/
def Irrl (g : Graph) : Prop :=
  ∀ y node, alookup y g.nodes = some node →
    y ∉ node.lesson.direct_prerequisites

theorem CCl_of_CC {g : Graph} (h : ChildrenComplete g) : CCl g :=
  fun y node hl q hq => h (y, node) (alookup_mem hl) q hq

theorem Irrl_of_Irr {g : Graph} (h : Irrefl g) : Irrl g :=
  fun y node hl => h (y, node) (alookup_mem hl)

theorem consistent_at_of_ConsistentG {today : Int} {g : Graph}
    (h : ConsistentG today g) : ∀ y, consistent_at today g y :=
  fun _ node hl => h (_, node) (alookup_mem hl)

theorem ConsistentG_of_forall {today : Int} {g : Graph}
    (hnd : (akeys g.nodes).Nodup) (h : ∀ y, consistent_at today g y) :
    ConsistentG today g :=
  fun p hp => h p.1 p.2 (mem_alookup hnd hp)

/-- What propagation preserves: children index, next id, node keys and every
node's lesson record. -/
def SameSkeleton (g g' : Graph) : Prop :=
  g'.children = g.children ∧ g'.next_id = g.next_id ∧
  akeys g'.nodes = akeys g.nodes ∧
  ∀ i, (alookup i g'.nodes).map GraphNode.lesson =
    (alookup i g.nodes).map GraphNode.lesson

theorem SameSkeleton_refl (g : Graph) : SameSkeleton g g :=
  ⟨Eq.refl _, Eq.refl _, Eq.refl _, fun _ => Eq.refl _⟩

theorem SameSkeleton_trans {g1 g2 g3 : Graph}
    (h12 : SameSkeleton g1 g2) (h23 : SameSkeleton g2 g3) : SameSkeleton g1 g3 :=
  ⟨h23.1.trans h12.1, h23.2.1.trans h12.2.1, h23.2.2.1.trans h12.2.2.1,
    fun i => (h23.2.2.2 i).trans (h12.2.2.2 i)⟩

theorem setStatus_skeleton (g : Graph) (x : Id) (s : NodeStatus) :
    SameSkeleton g
      { g with nodes := aupdate x (fun n => { n with status := s }) g.nodes } := by
  refine ⟨rfl, rfl, akeys_aupdate x (fun n => { n with status := s }) g.nodes, ?_⟩
  intro i
  by_cases h : x = i
  · subst h
    change (alookup x (aupdate x (fun n => { n with status := s }) g.nodes)).map
      GraphNode.lesson = (alookup x g.nodes).map GraphNode.lesson
    rw [alookup_aupdate_self]
    cases alookup x g.nodes <;> rfl
  · change (alookup i (aupdate x (fun n => { n with status := s }) g.nodes)).map
      GraphNode.lesson = (alookup i g.nodes).map GraphNode.lesson
    rw [alookup_aupdate_ne _ _ _ _ h]

theorem CCl_of_skeleton {g g' : Graph} (hs : SameSkeleton g g') (h : CCl g) :
    CCl g' := by
  intro y node hl q hq
  have := hs.2.2.2 y
  rw [hl] at this
  cases hg : alookup y g.nodes with
  | none => rw [hg] at this; exact absurd this (by simp)
  | some node0 =>
    rw [hg] at this
    simp at this
    have hq0 : q ∈ node0.lesson.direct_prerequisites := by rw [← this]; exact hq
    have := h y node0 hg q hq0
    show y ∈ (alookup q g'.children).getD []
    rw [hs.1]
    exact this

theorem Irrl_of_skeleton {g g' : Graph} (hs : SameSkeleton g g') (h : Irrl g) :
    Irrl g' := by
  intro y node hl hy
  have := hs.2.2.2 y
  rw [hl] at this
  cases hg : alookup y g.nodes with
  | none => rw [hg] at this; exact absurd this (by simp)
  | some node0 =>
    rw [hg] at this
    simp at this
    exact h y node0 hg (by rw [← this]; exact hy)

/-- Hoare-style specification of the dependents loop: if every inconsistent
node is among the pending worklist `cs` or the residual set `R`, the loop
repairs everything outside `R`. -/
theorem update_list_spec (today : Int) (upd : Graph → Id → Option Graph)
    (hupd : ∀ (g : Graph) (x : Id) (g' : Graph) (R : Id → Prop),
      CCl g → Irrl g →
      (∀ y, ¬ consistent_at today g y → y = x ∨ R y) →
      upd g x = some g' →
      (∀ y, ¬ consistent_at today g' y → R y) ∧ SameSkeleton g g') :
    ∀ (cs : List Id) (g g' : Graph) (R : Id → Prop),
      CCl g → Irrl g →
      (∀ y, ¬ consistent_at today g y → y ∈ cs ∨ R y) →
      update_node_status_list upd g cs = some g' →
      (∀ y, ¬ consistent_at today g' y → R y) ∧ SameSkeleton g g' := by
  intro cs
  induction cs with
  | nil =>
    intro g g' R _ _ hpre h
    simp only [update_node_status_list, Option.some.injEq] at h
    subst h
    refine ⟨?_, SameSkeleton_refl g⟩
    intro y hy
    rcases hpre y hy with hmem | hr
    · simp at hmem
    · exact hr
  | cons c cs ih =>
    intro g g' R hCC hIrr hpre h
    simp only [update_node_status_list] at h
    cases hu : upd g c with
    | none => rw [hu] at h; exact absurd h (by simp)
    | some g1 =>
      rw [hu] at h
      dsimp only at h
      have hpre1 : ∀ y, ¬ consistent_at today g y → y = c ∨ (y ∈ cs ∨ R y) := by
        intro y hy
        rcases hpre y hy with hmem | hr
        · rcases List.mem_cons.mp hmem with rfl | hmem'
          · exact Or.inl rfl
          · exact Or.inr (Or.inl hmem')
        · exact Or.inr (Or.inr hr)
      obtain ⟨hpost1, hskel1⟩ := hupd g c g1 (fun y => y ∈ cs ∨ R y) hCC hIrr hpre1 hu
      obtain ⟨hpost2, hskel2⟩ := ih g1 g' R (CCl_of_skeleton hskel1 hCC)
        (Irrl_of_skeleton hskel1 hIrr) hpost1 h
      exact ⟨hpost2, SameSkeleton_trans hskel1 hskel2⟩

/-- Hoare-style specification of `update_node_status`: on a graph whose
children index is complete and whose nodes are irreflexive, if every
inconsistent node is `x` itself or lies in `R`, then after a successful
propagation from `x` every inconsistent node lies in `R`, and only statuses
changed. -/
theorem update_spec (today : Int) :
    ∀ (fuel : Nat) (g : Graph) (x : Id) (g' : Graph) (R : Id → Prop),
      CCl g → Irrl g →
      (∀ y, ¬ consistent_at today g y → y = x ∨ R y) →
      update_node_status today fuel g x = some g' →
      (∀ y, ¬ consistent_at today g' y → R y) ∧ SameSkeleton g g' := by
  intro fuel
  induction fuel with
  | zero =>
    intro g x g' R _ _ _ h
    exact absurd h (by simp [update_node_status])
  | succ fuel ih =>
    intro g x g' R hCC hIrr hpre h
    simp only [update_node_status] at h
    cases hn : alookup x g.nodes with
    | none => rw [hn] at h; exact absurd h (by simp)
    | some node =>
      rw [hn] at h
      dsimp only at h
      cases hc : compute_node_status today g.statusOf
          node.lesson.direct_prerequisites node.lesson.status with
      | none => rw [hc] at h; exact absurd h (by simp)
      | some new_status =>
        rw [hc] at h
        dsimp only at h
        by_cases heq : new_status = node.status
        · rw [if_pos heq] at h
          injection h with h
          subst h
          refine ⟨?_, SameSkeleton_refl g⟩
          intro y hy
          rcases hpre y hy with rfl | hr
          · exfalso
            apply hy
            intro node' hn'
            rw [hn] at hn'
            injection hn' with hn'
            subst hn'
            rw [hc, heq]
          · exact hr
        · rw [if_neg heq] at h
          cases hch : alookup x g.children with
          | none => rw [hch] at h; exact absurd h (by simp)
          | some childs =>
            rw [hch] at h
            dsimp only at h
            have hskel1 := setStatus_skeleton g x new_status
            set g1 : Graph :=
              { g with nodes := aupdate x (fun n => { n with status := new_status }) g.nodes }
              with hg1def
            have hCC1 : CCl g1 := CCl_of_skeleton hskel1 hCC
            have hIrr1 : Irrl g1 := Irrl_of_skeleton hskel1 hIrr
            have hxnotpr : x ∉ node.lesson.direct_prerequisites := hIrr x node hn
            have hn1 : alookup x g1.nodes = some { node with status := new_status } := by
              show alookup x (aupdate x (fun n => { n with status := new_status }) g.nodes)
                = _
              rw [alookup_aupdate_self, hn]
              rfl
            have hstat_ne : ∀ p, p ≠ x → g1.statusOf p = g.statusOf p := by
              intro p hp
              show (alookup p (aupdate x (fun n => { n with status := new_status })
                g.nodes)).map GraphNode.status = _
              rw [alookup_aupdate_ne _ _ _ _ (Ne.symm hp)]
              rfl
            have hconsx : consistent_at today g1 x := by
              intro node' hn'
              rw [hn1] at hn'
              injection hn' with hn'
              subst hn'
              show compute_node_status today g1.statusOf
                node.lesson.direct_prerequisites node.lesson.status = some new_status
              have hco : compute_node_status today g1.statusOf
                  node.lesson.direct_prerequisites node.lesson.status =
                  compute_node_status today g.statusOf
                    node.lesson.direct_prerequisites node.lesson.status := by
                apply compute_node_status_congr
                intro p hp
                exact hstat_ne p (fun he => hxnotpr (he ▸ hp))
              rw [hco]
              exact hc
            have hpre1 : ∀ y, ¬ consistent_at today g1 y → y ∈ childs ∨ R y := by
              intro y hy
              by_cases hyx : y = x
              · subst hyx; exact absurd hconsx hy
              · simp only [consistent_at] at hy
                push_neg at hy
                obtain ⟨node', hn', hnc⟩ := hy
                have hny : alookup y g.nodes = some node' := by
                  rw [← hn']
                  show _ = alookup y (aupdate x (fun n => { n with status := new_status })
                    g.nodes)
                  rw [alookup_aupdate_ne _ _ _ _ (fun he => hyx he.symm)]
                by_cases hxin : x ∈ node'.lesson.direct_prerequisites
                · left
                  have hcc : y ∈ (alookup x g.children).getD [] := hCC y node' hny x hxin
                  rw [hch] at hcc
                  simpa using hcc
                · right
                  have hyg : ¬ consistent_at today g y := by
                    intro hcons
                    apply hnc
                    have hcomp := hcons node' hny
                    have hco : compute_node_status today g1.statusOf
                        node'.lesson.direct_prerequisites node'.lesson.status =
                        compute_node_status today g.statusOf
                          node'.lesson.direct_prerequisites node'.lesson.status := by
                      apply compute_node_status_congr
                      intro p hp
                      exact hstat_ne p (fun he => hxin (he ▸ hp))
                    rw [hco]
                    exact hcomp
                  rcases hpre y hyg with rfl | hr
                  · exact absurd rfl hyx
                  · exact hr
            obtain ⟨hpost, hskel2⟩ := update_list_spec today
              (update_node_status today fuel) ih childs g1 g' R hCC1 hIrr1 hpre1 h
            exact ⟨hpost, SameSkeleton_trans hskel1 hskel2⟩

theorem push_child_all_keys {id : Id} :
    ∀ (ps : List Id) (ch ch' : List (Id × List Id)),
      push_child_all ch ps id = some ch' → ∀ p ∈ ps, (alookup p ch).isSome := by
  intro ps
  induction ps with
  | nil => intro ch ch' _ p hp; simp at hp
  | cons q ps ih =>
    intro ch ch' h p hp
    simp only [push_child_all] at h
    cases hq : alookup q ch with
    | none => rw [hq] at h; exact absurd h (by simp)
    | some l =>
      rw [hq] at h
      dsimp only at h
      rcases List.mem_cons.mp hp with rfl | hp'
      · simp [hq]
      · have hs := ih _ _ h p hp'
        rwa [alookup_aupdate_isSome] at hs

theorem retain_child_all_lookup {id : Id} :
    ∀ (ps : List Id) (ch ch' : List (Id × List Id)),
      retain_child_all ch ps id = some ch' →
      ∀ q, (q ∉ ps → alookup q ch' = alookup q ch) ∧
        (q ∈ ps → ∃ l, alookup q ch = some l ∧
          alookup q ch' = some (l.filter (fun c => c ≠ id))) := by
  intro ps
  induction ps with
  | nil =>
    intro ch ch' h q
    simp only [retain_child_all, Option.some.injEq] at h
    subst h
    exact ⟨fun _ => rfl, fun hq => absurd hq (by simp)⟩
  | cons p ps ih =>
    intro ch ch' h q
    simp only [retain_child_all] at h
    cases hp : alookup p ch with
    | none => rw [hp] at h; exact absurd h (by simp)
    | some l0 =>
      rw [hp] at h
      dsimp only at h
      constructor
      · intro hq
        have hqp : q ≠ p := fun he => hq (he ▸ List.mem_cons_self p ps)
        have hqps : q ∉ ps := fun he => hq (List.mem_cons_of_mem p he)
        rw [(ih _ _ h q).1 hqps]
        exact alookup_aupdate_ne _ _ _ _ (Ne.symm hqp)
      · intro hq
        by_cases hqps : q ∈ ps
        · obtain ⟨l1, hl1, hl1'⟩ := (ih _ _ h q).2 hqps
          by_cases hqp : q = p
          · subst hqp
            rw [alookup_aupdate_self, hp] at hl1
            simp only [Option.map_some', Option.some.injEq] at hl1
            subst hl1
            rw [filter_idem] at hl1'
            exact ⟨l0, hp, hl1'⟩
          · rw [alookup_aupdate_ne _ _ _ _ (fun he => hqp he.symm)] at hl1
            exact ⟨l1, hl1, hl1'⟩
        · have hqp : q = p := by
            rcases List.mem_cons.mp hq with h' | h'
            · exact h'
            · exact absurd h' hqps
          subst hqp
          rw [(ih _ _ h q).1 hqps, alookup_aupdate_self, hp]
          exact ⟨l0, rfl, rfl⟩

theorem push_child_all_lookup {id : Id} :
    ∀ (ps : List Id) (ch ch' : List (Id × List Id)),
      push_child_all ch ps id = some ch' →
      ∀ q, (q ∉ ps → alookup q ch' = alookup q ch) ∧
        (q ∈ ps → ∃ l l', alookup q ch = some l ∧ alookup q ch' = some l' ∧
          id ∈ l' ∧ ∀ c, c ∈ l' ↔ (c ∈ l ∨ c = id)) := by
  intro ps
  induction ps with
  | nil =>
    intro ch ch' h q
    simp only [push_child_all, Option.some.injEq] at h
    subst h
    exact ⟨fun _ => rfl, fun hq => absurd hq (by simp)⟩
  | cons p ps ih =>
    intro ch ch' h q
    simp only [push_child_all] at h
    cases hp : alookup p ch with
    | none => rw [hp] at h; exact absurd h (by simp)
    | some l0 =>
      rw [hp] at h
      dsimp only at h
      constructor
      · intro hq
        have hqp : q ≠ p := fun he => hq (he ▸ List.mem_cons_self p ps)
        have hqps : q ∉ ps := fun he => hq (List.mem_cons_of_mem p he)
        rw [(ih _ _ h q).1 hqps]
        exact alookup_aupdate_ne _ _ _ _ (Ne.symm hqp)
      · intro hq
        by_cases hqps : q ∈ ps
        · obtain ⟨l1, l', hl1, hl', hmem, hiff⟩ := (ih _ _ h q).2 hqps
          by_cases hqp : q = p
          · subst hqp
            rw [alookup_aupdate_self, hp] at hl1
            simp only [Option.map_some', Option.some.injEq] at hl1
            subst hl1
            refine ⟨l0, l', hp, hl', hmem, ?_⟩
            intro c
            rw [hiff c]
            simp only [List.mem_append, List.mem_singleton]
            tauto
          · rw [alookup_aupdate_ne _ _ _ _ (fun he => hqp he.symm)] at hl1
            exact ⟨l1, l', hl1, hl', hmem, hiff⟩
        · have hqp : q = p := by
            rcases List.mem_cons.mp hq with h' | h'
            · exact h'
            · exact absurd h' hqps
          subst hqp
          rw [(ih _ _ h q).1 hqps, alookup_aupdate_self, hp]
          refine ⟨l0, l0 ++ [id], rfl, rfl, by simp, ?_⟩
          intro c
          simp [List.mem_append]

theorem remove_prereq_idem (id : Id) (lsn : LessonInfo) :
    remove_prereq id (remove_prereq id lsn) = remove_prereq id lsn := by
  simp [remove_prereq, filter_idem]

theorem remove_prereq_all_lookup {b : IOBackend} {id : Id} :
    ∀ (cs : List Id) (nodes nodes' : List (Id × GraphNode)) (tr : List BackendOp),
      remove_prereq_all b nodes cs id = some (nodes', tr) →
      (∀ j, (j ∉ cs → alookup j nodes' = alookup j nodes) ∧
        (j ∈ cs → ∃ n, alookup j nodes = some n ∧
          alookup j nodes' = some { n with lesson := remove_prereq id n.lesson })) ∧
      (∀ c ∈ cs, ∃ lsn, BackendOp.update c lsn ∈ tr) ∧
      akeys nodes' = akeys nodes := by
  intro cs
  induction cs with
  | nil =>
    intro nodes nodes' tr h
    simp only [remove_prereq_all, Option.some.injEq, Prod.mk.injEq] at h
    obtain ⟨h1, h2⟩ := h
    subst h1; subst h2
    exact ⟨fun j => ⟨fun _ => rfl, by simp⟩, by simp, rfl⟩
  | cons c cs ih =>
    intro nodes nodes' tr h
    simp only [remove_prereq_all] at h
    cases hc : alookup c nodes with
    | none => rw [hc] at h; exact absurd h (by simp)
    | some child =>
      rw [hc] at h
      dsimp only at h
      cases hb : b.update_existing_lesson c (remove_prereq id child.lesson) with
      | error e => rw [hb] at h; exact absurd h (by simp)
      | ok u =>
        rw [hb] at h
        dsimp only at h
        cases hrec : remove_prereq_all b
            (aupdate c (fun n => { n with lesson := remove_prereq id child.lesson }) nodes)
            cs id with
        | none => rw [hrec] at h; exact absurd h (by simp)
        | some w =>
          obtain ⟨nodes'', tr'⟩ := w
          rw [hrec] at h
          dsimp only at h
          simp only [Option.some.injEq, Prod.mk.injEq] at h
          obtain ⟨h1, h2⟩ := h
          subst h1
          obtain ⟨hlk, htr, hkeys⟩ := ih _ _ _ hrec
          refine ⟨?_, ?_, ?_⟩
          · intro j
            constructor
            · intro hj
              have hjc : j ≠ c := fun he => hj (he ▸ List.mem_cons_self c cs)
              have hjcs : j ∉ cs := fun he => hj (List.mem_cons_of_mem c he)
              rw [(hlk j).1 hjcs]
              exact alookup_aupdate_ne _ _ _ _ (Ne.symm hjc)
            · intro hj
              by_cases hjcs : j ∈ cs
              · obtain ⟨n1, hn1, hn1'⟩ := (hlk j).2 hjcs
                by_cases hjc : j = c
                · subst hjc
                  rw [alookup_aupdate_self, hc] at hn1
                  simp only [Option.map_some', Option.some.injEq] at hn1
                  subst hn1
                  refine ⟨child, hc, ?_⟩
                  rw [hn1']
                  simp [remove_prereq_idem]
                · rw [alookup_aupdate_ne _ _ _ _ (fun he => hjc he.symm)] at hn1
                  exact ⟨n1, hn1, hn1'⟩
              · have hjc : j = c := by
                  rcases List.mem_cons.mp hj with h' | h'
                  · exact h'
                  · exact absurd h' hjcs
                subst hjc
                rw [(hlk j).1 hjcs, alookup_aupdate_self, hc]
                exact ⟨child, rfl, rfl⟩
          · intro d hd
            rcases List.mem_cons.mp hd with rfl | hd'
            · exact ⟨_, by rw [← h2]; exact List.mem_cons_self _ _⟩
            · obtain ⟨lsn, hlsn⟩ := htr d hd'
              exact ⟨lsn, by rw [← h2]; exact List.mem_cons_of_mem _ hlsn⟩
          · rw [hkeys, akeys_aupdate]

/-- `create_new_node` preserves invariant 3: the new graph is fully
consistent. -/
theorem create_consistent (b : IOBackend) (today : Int) (g : Graph)
    (info : LessonInfo) (newId : Id) (g' : Graph) (tr : List BackendOp)
    (hWF : WF g) (hcons : ConsistentG today g)
    (h : create_new_node b today g info = some (newId, g', tr)) :
    ConsistentG today g' := by
  obtain ⟨hndn, hndc, hCC, hCS, hNCE, hCKS, hNC, hKB, hIrr⟩ := hWF
  simp only [create_new_node] at h
  cases hpush : push_child_all g.children info.direct_prerequisites g.next_id with
  | none => rw [hpush] at h; exact absurd h (by simp)
  | some children' =>
    rw [hpush] at h
    dsimp only at h
    cases hcomp : compute_node_status today g.statusOf
        info.direct_prerequisites info.status with
    | none => rw [hcomp] at h; exact absurd h (by simp)
    | some s =>
      rw [hcomp] at h
      dsimp only at h
      cases hb : b.add_new_lesson g.next_id info with
      | error e => rw [hb] at h; exact absurd h (by simp)
      | ok u =>
        rw [hb] at h
        dsimp only at h
        simp only [Option.some.injEq, Prod.mk.injEq] at h
        obtain ⟨hid, hg', htr⟩ := h
        subst hg'
        have hprlt : ∀ p ∈ info.direct_prerequisites, p < g.next_id := by
          intro p hp
          have h1 : (alookup p g.children).isSome :=
            push_child_all_keys _ _ _ hpush p hp
          obtain ⟨l, hl⟩ := Option.isSome_iff_exists.mp h1
          obtain ⟨n, hn⟩ := Option.isSome_iff_exists.mp (hCKS (p, l) (alookup_mem hl))
          exact hKB (p, n) (alookup_mem hn)
        have hstat : ∀ p, p < g.next_id →
            (Graph.statusOf ⟨ainsert g.next_id ⟨info, s⟩ g.nodes,
              ainsert g.next_id [] children', g.next_id + 1⟩) p = g.statusOf p := by
          intro p hp
          show (alookup p (ainsert g.next_id ⟨info, s⟩ g.nodes)).map _ = _
          rw [alookup_ainsert_ne _ _ _ _ (ne_of_gt hp)]
          rfl
        intro q hq
        rcases List.mem_cons.mp hq with heq | hq'
        · subst heq
          show compute_node_status today _ info.direct_prerequisites info.status
            = some s
          have hco : compute_node_status today
              (Graph.statusOf ⟨ainsert g.next_id ⟨info, s⟩ g.nodes,
                ainsert g.next_id [] children', g.next_id + 1⟩)
              info.direct_prerequisites info.status =
              compute_node_status today g.statusOf
                info.direct_prerequisites info.status := by
            apply compute_node_status_congr
            intro p hp
            exact hstat p (hprlt p hp)
          rw [hco]
          exact hcomp
        · have hqg : q ∈ g.nodes := List.mem_of_mem_filter hq'
          have hco : compute_node_status today
              (Graph.statusOf ⟨ainsert g.next_id ⟨info, s⟩ g.nodes,
                ainsert g.next_id [] children', g.next_id + 1⟩)
              q.2.lesson.direct_prerequisites q.2.lesson.status =
              compute_node_status today g.statusOf
                q.2.lesson.direct_prerequisites q.2.lesson.status := by
            apply compute_node_status_congr
            intro r hr
            obtain ⟨n, hn⟩ := Option.isSome_iff_exists.mp (hNC q hqg r hr)
            exact hstat r (hKB (r, n) (alookup_mem hn))
          show compute_node_status today _ q.2.lesson.direct_prerequisites
            q.2.lesson.status = some q.2.status
          rw [hco]
          exact hcons q hqg

theorem retain_child_all_keys {id : Id} :
    ∀ (ps : List Id) (ch ch' : List (Id × List Id)),
      retain_child_all ch ps id = some ch' → akeys ch' = akeys ch := by
  intro ps
  induction ps with
  | nil =>
    intro ch ch' h
    simp only [retain_child_all, Option.some.injEq] at h
    subst h
    rfl
  | cons p ps ih =>
    intro ch ch' h
    simp only [retain_child_all] at h
    cases hp : alookup p ch with
    | none => rw [hp] at h; exact absurd h (by simp)
    | some l0 =>
      rw [hp] at h
      dsimp only at h
      rw [ih _ _ h, akeys_aupdate]

theorem aremove_keys_sublist (k : Id) (l : List (Id × β)) :
    (akeys (aremove k l)).Sublist (akeys l) :=
  List.Sublist.map Prod.fst (List.filter_sublist l)

/-- `edit_node` preserves invariant 3 when the new prerequisite list does
not make the node its own prerequisite (a consequence of acyclicity of the
edited graph). -/
theorem edit_consistent (b : IOBackend) (today : Int) (fuel : Nat) (g : Graph)
    (x : Id) (info : LessonInfo) (g' : Graph) (tr : List BackendOp)
    (hWF : WF g) (hcons : ConsistentG today g)
    (hxpr : x ∉ info.direct_prerequisites)
    (h : edit_node b today fuel g x info = some (g', tr)) :
    ConsistentG today g' := by
  obtain ⟨hndn, hndc, hCC, hCS, hNCE, hCKS, hNC, hKB, hIrr⟩ := hWF
  simp only [edit_node] at h
  cases hn : alookup x g.nodes with
  | none => rw [hn] at h; exact absurd h (by simp)
  | some node =>
    rw [hn] at h
    dsimp only at h
    cases hret : retain_child_all g.children node.lesson.direct_prerequisites x with
    | none => rw [hret] at h; exact absurd h (by simp)
    | some ch1 =>
      rw [hret] at h
      dsimp only at h
      cases hpush : push_child_all ch1 info.direct_prerequisites x with
      | none => rw [hpush] at h; exact absurd h (by simp)
      | some ch2 =>
        rw [hpush] at h
        dsimp only at h
        cases hb : b.update_existing_lesson x info with
        | error e => rw [hb] at h; exact absurd h (by simp)
        | ok u =>
          rw [hb] at h
          dsimp only at h
          set g1 : Graph :=
            { nodes := aupdate x (replace_lesson info) g.nodes,
              children := ch2,
              next_id := g.next_id } with hg1
          cases hupd : update_node_status today fuel g1 x with
          | none => rw [hupd] at h; exact absurd h (by simp)
          | some g2 =>
            rw [hupd] at h
            dsimp only at h
            simp only [Option.some.injEq, Prod.mk.injEq] at h
            obtain ⟨hg2, htr⟩ := h
            subst hg2
            have hCClg : CCl g := CCl_of_CC hCC
            -- the children index of g1 is complete
            have hCC1 : CCl g1 := by
              intro y node' hl q hq
              by_cases hyx : y = x
              · rw [hyx] at hl ⊢
                have hlx : alookup x g1.nodes = some (replace_lesson info node) := by
                  show alookup x (aupdate x (replace_lesson info) g.nodes) = _
                  rw [alookup_aupdate_self, hn]
                  rfl
                rw [hlx] at hl
                injection hl with hl
                subst hl
                have hq' : q ∈ info.direct_prerequisites := hq
                obtain ⟨l, l', hql, hql', hxl', _⟩ :=
                  (push_child_all_lookup _ _ _ hpush q).2 hq'
                show x ∈ (alookup q g1.children).getD []
                show x ∈ (alookup q ch2).getD []
                rw [hql']
                exact hxl'
              · have hly : alookup y g.nodes = some node' := by
                  rw [← hl]
                  show _ = alookup y (aupdate x (replace_lesson info) g.nodes)
                  rw [alookup_aupdate_ne _ _ _ _ (fun he => hyx he.symm)]
                have hyc := hCClg y node' hly q hq
                obtain ⟨l, hql, hyl⟩ := mem_getD_some hyc
                have hch1 : ∃ l1, alookup q ch1 = some l1 ∧ y ∈ l1 := by
                  by_cases hqold : q ∈ node.lesson.direct_prerequisites
                  · obtain ⟨l0, hl0, hl0'⟩ :=
                      (retain_child_all_lookup _ _ _ hret q).2 hqold
                    rw [hql] at hl0
                    injection hl0 with hl0
                    subst hl0
                    refine ⟨_, hl0', ?_⟩
                    exact List.mem_filter.mpr ⟨hyl, by simp [hyx]⟩
                  · rw [(retain_child_all_lookup _ _ _ hret q).1 hqold]
                    exact ⟨l, hql, hyl⟩
                obtain ⟨l1, hql1, hyl1⟩ := hch1
                show y ∈ (alookup q ch2).getD []
                by_cases hqnew : q ∈ info.direct_prerequisites
                · obtain ⟨l2, l', hql2, hql', _, hiff⟩ :=
                    (push_child_all_lookup _ _ _ hpush q).2 hqnew
                  rw [hql1] at hql2
                  injection hql2 with hql2
                  subst hql2
                  rw [hql']
                  exact (hiff y).mpr (Or.inl hyl1)
                · rw [(push_child_all_lookup _ _ _ hpush q).1 hqnew, hql1]
                  exact hyl1
            have hIrr1 : Irrl g1 := by
              intro y node' hl
              by_cases hyx : y = x
              · rw [hyx] at hl
                rw [hyx]
                have hlx : alookup x g1.nodes = some (replace_lesson info node) := by
                  show alookup x (aupdate x (replace_lesson info) g.nodes) = _
                  rw [alookup_aupdate_self, hn]
                  rfl
                rw [hlx] at hl
                injection hl with hl
                subst hl
                exact hxpr
              · have hly : alookup y g.nodes = some node' := by
                  rw [← hl]
                  show _ = alookup y (aupdate x (replace_lesson info) g.nodes)
                  rw [alookup_aupdate_ne _ _ _ _ (fun he => hyx he.symm)]
                exact Irrl_of_Irr hIrr y node' hly
            have hstat : ∀ i, g1.statusOf i = g.statusOf i := by
              intro i
              show (alookup i (aupdate x (replace_lesson info) g.nodes)).map
                GraphNode.status = (alookup i g.nodes).map GraphNode.status
              by_cases hix : x = i
              · subst hix
                rw [alookup_aupdate_self]
                cases alookup x g.nodes <;> rfl
              · rw [alookup_aupdate_ne _ _ _ _ hix]
            have hpre : ∀ y, ¬ consistent_at today g1 y → y = x ∨ False := by
              intro y hy
              left
              by_contra hyx
              apply hy
              intro node' hl
              have hly : alookup y g.nodes = some node' := by
                rw [← hl]
                show _ = alookup y (aupdate x (replace_lesson info) g.nodes)
                rw [alookup_aupdate_ne _ _ _ _ (fun he => hyx he.symm)]
              have hco : compute_node_status today g1.statusOf
                  node'.lesson.direct_prerequisites node'.lesson.status =
                  compute_node_status today g.statusOf
                    node'.lesson.direct_prerequisites node'.lesson.status := by
                apply compute_node_status_congr
                intro p _
                exact hstat p
              rw [hco]
              exact consistent_at_of_ConsistentG hcons y node' hly
            obtain ⟨hpost, hskel⟩ :=
              update_spec today fuel g1 x g2 (fun _ => False) hCC1 hIrr1 hpre hupd
            have hnd2 : (akeys g2.nodes).Nodup := by
              rw [hskel.2.2.1]
              show (akeys (aupdate x (replace_lesson info) g.nodes)).Nodup
              rw [akeys_aupdate]
              exact hndn
            apply ConsistentG_of_forall hnd2
            intro y
            by_contra hc
            exact hpost y hc

/-- `delete_node` preserves invariant 3 and performs the full rewiring: the
deleted id disappears from the node map, from every remaining prerequisite
list and from the children index (keys and elements); every former direct
dependent is written through and left consistent; the delete is the last
storage call issued. -/
theorem delete_spec (b : IOBackend) (today : Int) (fuel : Nat) (g : Graph)
    (x : Id) (g' : Graph) (tr : List BackendOp)
    (hWF : WF g) (hcons : ConsistentG today g)
    (h : delete_node b today fuel g x = some (g', tr)) :
    ConsistentG today g' ∧
    alookup x g'.nodes = none ∧
    (∀ p ∈ g'.nodes, x ∉ p.2.lesson.direct_prerequisites) ∧
    alookup x g'.children = none ∧
    (∀ c ∈ g'.children, x ∉ c.2) ∧
    (∃ childs, alookup x g.children = some childs ∧
      (∀ c ∈ childs, ∃ lsn, BackendOp.update c lsn ∈ tr) ∧
      (∀ c ∈ childs, consistent_at today g' c)) ∧
    (∃ tr1, tr = tr1 ++ [.remove x]) := by
  obtain ⟨hndn, hndc, hCC, hCS, hNCE, hCKS, hNC, hKB, hIrr⟩ := hWF
  simp only [delete_node] at h
  cases hn : alookup x g.nodes with
  | none => rw [hn] at h; exact absurd h (by simp)
  | some node =>
    rw [hn] at h
    dsimp only at h
    cases hret : retain_child_all g.children node.lesson.direct_prerequisites x with
    | none => rw [hret] at h; exact absurd h (by simp)
    | some ch1 =>
      rw [hret] at h
      dsimp only at h
      cases hchilds : alookup x ch1 with
      | none => rw [hchilds] at h; exact absurd h (by simp)
      | some childs =>
        rw [hchilds] at h
        dsimp only at h
        cases hrem : remove_prereq_all b (aremove x g.nodes) childs x with
        | none => rw [hrem] at h; exact absurd h (by simp)
        | some w =>
          obtain ⟨nodes2, tr1⟩ := w
          rw [hrem] at h
          dsimp only at h
          cases hupd : update_node_status_list (update_node_status today fuel)
              { nodes := nodes2, children := aremove x ch1, next_id := g.next_id }
              childs with
          | none => rw [hupd] at h; exact absurd h (by simp)
          | some g3 =>
            rw [hupd] at h
            dsimp only at h
            cases hb : b.remove_lesson x with
            | error e => rw [hb] at h; exact absurd h (by simp)
            | ok u =>
              rw [hb] at h
              dsimp only at h
              simp only [Option.some.injEq, Prod.mk.injEq] at h
              obtain ⟨hg3, htr⟩ := h
              have hxnode : (x, node) ∈ g.nodes := alookup_mem hn
              have hF0 : x ∉ node.lesson.direct_prerequisites := hIrr (x, node) hxnode
              have hretlk := retain_child_all_lookup _ _ _ hret
              have hF1 : alookup x g.children = some childs := by
                rw [← (hretlk x).1 hF0]
                exact hchilds
              obtain ⟨hlk, htr1, hkeys2⟩ := remove_prereq_all_lookup _ _ _ _ hrem
              have hprx : prereqsOfG g x = node.lesson.direct_prerequisites := by
                show ((alookup x g.nodes).map _).getD [] = _
                rw [hn]
                rfl
              have hxchilds : x ∉ childs := by
                intro hx
                obtain ⟨_, hxp⟩ := hCS (x, childs) (alookup_mem hF1) x hx
                rw [hprx] at hxp
                exact hF0 hxp
              have hF3 : alookup x nodes2 = none := by
                rw [(hlk x).1 hxchilds]
                exact alookup_aremove_self x g.nodes
              have hchild_iff : ∀ y n0, alookup y g.nodes = some n0 →
                  x ∈ n0.lesson.direct_prerequisites → y ∈ childs := by
                intro y n0 hn0 hx
                obtain ⟨l, hl, hyl⟩ := mem_getD_some (CCl_of_CC hCC y n0 hn0 x hx)
                rw [hF1] at hl
                injection hl with hl
                subst hl
                exact hyl
              have hmidlook : ∀ y node', alookup y nodes2 = some node' →
                  y ≠ x ∧ ∃ n0, alookup y g.nodes = some n0 ∧
                    node'.status = n0.status ∧
                    ((y ∉ childs ∧ node' = n0) ∨
                     (y ∈ childs ∧
                      node' = { n0 with lesson := remove_prereq x n0.lesson })) := by
                intro y node' hl
                have hyx : y ≠ x := by
                  intro he
                  rw [he, hF3] at hl
                  exact absurd hl (by simp)
                refine ⟨hyx, ?_⟩
                by_cases hyc : y ∈ childs
                · obtain ⟨n0, hn0, hn0'⟩ := (hlk y).2 hyc
                  rw [alookup_aremove_ne _ _ _ hyx] at hn0
                  rw [hl] at hn0'
                  injection hn0' with hn0'
                  exact ⟨n0, hn0, by rw [hn0'], Or.inr ⟨hyc, hn0'⟩⟩
                · have h2 : alookup y nodes2 = alookup y g.nodes := by
                    rw [(hlk y).1 hyc]
                    exact alookup_aremove_ne _ _ _ hyx
                  rw [hl] at h2
                  exact ⟨node', h2.symm, rfl, Or.inl ⟨hyc, rfl⟩⟩
              have hnoprx : ∀ y node', alookup y nodes2 = some node' →
                  x ∉ node'.lesson.direct_prerequisites := by
                intro y node' hl hxin
                obtain ⟨hyx, n0, hn0, _, hcase⟩ := hmidlook y node' hl
                rcases hcase with ⟨hyc, he⟩ | ⟨hyc, he⟩
                · rw [he] at hxin
                  exact hyc (hchild_iff y n0 hn0 hxin)
                · rw [he] at hxin
                  have := (List.mem_filter.mp hxin).2
                  simp at this
              have hstatmid : ∀ p, p ≠ x →
                  (Graph.statusOf ⟨nodes2, aremove x ch1, g.next_id⟩) p
                    = g.statusOf p := by
                intro p hp
                show (alookup p nodes2).map GraphNode.status
                  = (alookup p g.nodes).map GraphNode.status
                by_cases hpc : p ∈ childs
                · obtain ⟨n0, hn0, hn0'⟩ := (hlk p).2 hpc
                  rw [alookup_aremove_ne _ _ _ hp] at hn0
                  rw [hn0', hn0]
                  rfl
                · rw [(hlk p).1 hpc, alookup_aremove_ne _ _ _ hp]
              have hCCmid : CCl ⟨nodes2, aremove x ch1, g.next_id⟩ := by
                intro y node' hl q hq
                obtain ⟨hyx, n0, hn0, _, hcase⟩ := hmidlook y node' hl
                have hq0 : q ∈ n0.lesson.direct_prerequisites := by
                  rcases hcase with ⟨_, he⟩ | ⟨_, he⟩
                  · rw [he] at hq; exact hq
                  · rw [he] at hq; exact (List.mem_filter.mp hq).1
                have hqx : q ≠ x := by
                  intro heq
                  subst heq
                  rcases hcase with ⟨hyc, he⟩ | ⟨hyc, he⟩
                  · exact hyc (hchild_iff y n0 hn0 hq0)
                  · rw [he] at hq
                    have := (List.mem_filter.mp hq).2
                    simp at this
                obtain ⟨l, hql, hyl⟩ := mem_getD_some (CCl_of_CC hCC y n0 hn0 q hq0)
                show y ∈ (alookup q (aremove x ch1)).getD []
                rw [alookup_aremove_ne _ _ _ hqx]
                by_cases hqold : q ∈ node.lesson.direct_prerequisites
                · obtain ⟨l0, hl0, hl0'⟩ := (hretlk q).2 hqold
                  rw [hql] at hl0
                  injection hl0 with hl0
                  subst hl0
                  rw [hl0']
                  simp only [Option.getD_some]
                  exact List.mem_filter.mpr ⟨hyl, by simp [hyx]⟩
                · rw [(hretlk q).1 hqold, hql]
                  exact hyl
              have hIrrmid : Irrl ⟨nodes2, aremove x ch1, g.next_id⟩ := by
                intro y node' hl hyin
                obtain ⟨hyx, n0, hn0, _, hcase⟩ := hmidlook y node' hl
                have hyn0 : y ∈ n0.lesson.direct_prerequisites := by
                  rcases hcase with ⟨_, he⟩ | ⟨_, he⟩
                  · rw [he] at hyin; exact hyin
                  · rw [he] at hyin; exact (List.mem_filter.mp hyin).1
                exact Irrl_of_Irr hIrr y n0 hn0 hyn0
              have hpremid : ∀ y,
                  ¬ consistent_at today ⟨nodes2, aremove x ch1, g.next_id⟩ y →
                  y ∈ childs ∨ False := by
                intro y hy
                left
                by_contra hyc
                apply hy
                intro node' hl
                obtain ⟨hyx, n0, hn0, _, hcase⟩ := hmidlook y node' hl
                rcases hcase with ⟨_, he⟩ | ⟨hyc', _⟩
                · rw [he]
                  have hnoxin : x ∉ n0.lesson.direct_prerequisites :=
                    fun hxin => hyc (hchild_iff y n0 hn0 hxin)
                  have hco : compute_node_status today
                      (Graph.statusOf ⟨nodes2, aremove x ch1, g.next_id⟩)
                      n0.lesson.direct_prerequisites n0.lesson.status =
                      compute_node_status today g.statusOf
                        n0.lesson.direct_prerequisites n0.lesson.status := by
                    apply compute_node_status_congr
                    intro p hp
                    exact hstatmid p (fun he => hnoxin (he ▸ hp))
                  rw [hco]
                  exact consistent_at_of_ConsistentG hcons y n0 hn0
                · exact absurd hyc' hyc
              obtain ⟨hpost, hskel⟩ := update_list_spec today
                (update_node_status today fuel) (update_spec today fuel) childs
                ⟨nodes2, aremove x ch1, g.next_id⟩ g3 (fun _ => False)
                hCCmid hIrrmid hpremid hupd
              have hnd3 : (akeys g3.nodes).Nodup := by
                rw [hskel.2.2.1]
                show (akeys nodes2).Nodup
                rw [hkeys2]
                exact List.Nodup.sublist (aremove_keys_sublist x g.nodes) hndn
              have hconsall : ∀ y, consistent_at today g3 y := by
                intro y
                by_contra hc
                exact hpost y hc
              have hout : ConsistentG today g3 ∧
                  alookup x g3.nodes = none ∧
                  (∀ p ∈ g3.nodes, x ∉ p.2.lesson.direct_prerequisites) ∧
                  alookup x g3.children = none ∧
                  (∀ c ∈ g3.children, x ∉ c.2) ∧
                  (∃ childs', alookup x g.children = some childs' ∧
                    (∀ c ∈ childs', ∃ lsn, BackendOp.update c lsn
                      ∈ tr1 ++ [BackendOp.remove x]) ∧
                    (∀ c ∈ childs', consistent_at today g3 c)) ∧
                  (∃ tr0, tr1 ++ [BackendOp.remove x]
                    = tr0 ++ [BackendOp.remove x]) := by
                refine ⟨ConsistentG_of_forall hnd3 hconsall, ?_, ?_, ?_, ?_, ?_,
                  ⟨tr1, rfl⟩⟩
                · have hles := hskel.2.2.2 x
                  dsimp only at hles
                  rw [hF3] at hles
                  cases hx3 : alookup x g3.nodes with
                  | none => rfl
                  | some n => rw [hx3] at hles; exact absurd hles (by simp)
                · intro p hp
                  have hlp : alookup p.1 g3.nodes = some p.2 := mem_alookup hnd3 hp
                  have hles := hskel.2.2.2 p.1
                  dsimp only at hles
                  rw [hlp] at hles
                  cases hmp : alookup p.1 nodes2 with
                  | none => rw [hmp] at hles; exact absurd hles (by simp)
                  | some wn =>
                    rw [hmp] at hles
                    simp only [Option.map_some', Option.some.injEq] at hles
                    intro hxin
                    apply hnoprx p.1 wn hmp
                    rw [← hles]
                    exact hxin
                · rw [hskel.1]
                  exact alookup_aremove_self x ch1
                · intro c hc
                  rw [hskel.1] at hc
                  have hc1 : c ∈ ch1 := List.mem_of_mem_filter hc
                  have hndch1 : (akeys ch1).Nodup := by
                    rw [retain_child_all_keys _ _ _ hret]
                    exact hndc
                  have hlc : alookup c.1 ch1 = some c.2 := mem_alookup hndch1 hc1
                  intro hxc
                  by_cases hcold : c.1 ∈ node.lesson.direct_prerequisites
                  · obtain ⟨l0, hl0, hl0'⟩ := (hretlk c.1).2 hcold
                    rw [hlc] at hl0'
                    injection hl0' with hl0'
                    rw [hl0'] at hxc
                    have := (List.mem_filter.mp hxc).2
                    simp at this
                  · rw [(hretlk c.1).1 hcold] at hlc
                    obtain ⟨_, hxp⟩ := hCS (c.1, c.2) (alookup_mem hlc) x hxc
                    rw [hprx] at hxp
                    exact hcold hxp
                · refine ⟨childs, hF1, ?_, fun c _ => hconsall c⟩
                  intro c hcm
                  obtain ⟨lsn, hlsn⟩ := htr1 c hcm
                  exact ⟨lsn, List.mem_append_left _ hlsn⟩
              rw [← hg3, ← htr]
              exact hout

/-- A rule-consistent status assignment on an acyclic, closed lesson table
is unique. -/
theorem fixpoint_unique (today : Int) (infoOf : Id → Option LessonInfo)
    (s1 s2 : Id → Option NodeStatus) (rank : Id → Nat)
    (hrank : ∀ id info, infoOf id = some info →
      ∀ p ∈ info.direct_prerequisites, rank p < rank id)
    (hclosed : ∀ id info, infoOf id = some info →
      ∀ p ∈ info.direct_prerequisites, (infoOf p).isSome)
    (h1 : ∀ id info, infoOf id = some info →
      ∃ v, s1 id = some v ∧ compute_node_status today s1
        info.direct_prerequisites info.status = some v)
    (h2 : ∀ id info, infoOf id = some info →
      ∃ v, s2 id = some v ∧ compute_node_status today s2
        info.direct_prerequisites info.status = some v) :
    ∀ id, (infoOf id).isSome → s1 id = s2 id := by
  suffices H : ∀ n id, rank id < n → (infoOf id).isSome → s1 id = s2 id by
    intro id hid
    exact H (rank id + 1) id (Nat.lt_succ_self _) hid
  intro n
  induction n with
  | zero => intro id h _; exact absurd h (Nat.not_lt_zero _)
  | succ n ih =>
    intro id hlt hid
    obtain ⟨info, hinfo⟩ := Option.isSome_iff_exists.mp hid
    obtain ⟨v1, hv1, hc1⟩ := h1 id info hinfo
    obtain ⟨v2, hv2, hc2⟩ := h2 id info hinfo
    have hco : compute_node_status today s1 info.direct_prerequisites info.status
        = compute_node_status today s2 info.direct_prerequisites info.status := by
      apply compute_node_status_congr
      intro p hp
      exact ih p (lt_of_lt_of_le (hrank id info hinfo p hp) (Nat.lt_succ_iff.mp hlt))
        (hclosed id info hinfo p hp)
    rw [hv1, hv2]
    rw [hco] at hc1
    rw [hc1] at hc2
    injection hc2 with hc2
    rw [hc2]

/-- The lesson table of a graph, as the builder would receive it from the
storage backend. -/
def lessonsOf (g : Graph) : List (Id × LessonInfo) :=
  g.nodes.map (fun p => (p.1, p.2.lesson))

theorem alookup_map_value (k : Id) (f : β → γ) (l : List (Id × β)) :
    alookup k (l.map (fun p => (p.1, f p.2))) = (alookup k l).map f := by
  induction l with
  | nil => rfl
  | cons p l ih =>
    cases p with
    | mk a v => by_cases h : a = k <;> simp [alookup, h, ih]

theorem akeys_map_value (f : β → γ) (l : List (Id × β)) :
    akeys (l.map (fun p => (p.1, f p.2))) = akeys l := by
  induction l with
  | nil => rfl
  | cons p l ih =>
    show p.1 :: akeys (l.map (fun p => (p.1, f p.2))) = p.1 :: akeys l
    rw [ih]

/-- A consistent acyclic graph's stored statuses coincide with what a full
bulk re-resolve of its lesson table produces. -/
theorem consistent_matches_resolve (today : Int) (g : Graph) (rank : Id → Nat)
    (hrank : RankOn g rank) (hclosed : NodesClosed g)
    (hcons : ConsistentG today g) (fuel : Nat) (memo : List (Id × NodeStatus))
    (hres : resolve_all today (lessonsOf g) fuel [] (akeys (lessonsOf g))
      = some memo) :
    ∀ id node, alookup id g.nodes = some node →
      alookup id memo = some node.status := by
  have hRI : RankOnInfos (lessonsOf g) rank := by
    intro p hp q hq
    obtain ⟨p0, hp0, he⟩ := List.mem_map.mp hp
    subst he
    exact hrank p0 hp0 q hq
  have hmc0 : MemoConsistent today (lessonsOf g) [] := by
    intro id s h
    exact absurd h (by simp [alookup])
  obtain ⟨_, hmc, hall⟩ :=
    resolve_all_spec today (lessonsOf g) rank hRI fuel _ [] memo hmc0 hres
  have hu := fixpoint_unique today
    (fun id => (alookup id g.nodes).map GraphNode.lesson)
    g.statusOf (fun id => alookup id memo) rank ?_ ?_ ?_ ?_
  · intro id node hnode
    have hs : ((alookup id g.nodes).map GraphNode.lesson).isSome := by
      rw [hnode]
      rfl
    have h5 := hu id hs
    dsimp only at h5
    show alookup id memo = some node.status
    rw [← h5]
    show (alookup id g.nodes).map GraphNode.status = _
    rw [hnode]
    rfl
  · intro id info hinfo p hp
    dsimp only at hinfo
    cases hid : alookup id g.nodes with
    | none => rw [hid] at hinfo; exact absurd hinfo (by simp)
    | some node =>
      rw [hid] at hinfo
      simp only [Option.map_some', Option.some.injEq] at hinfo
      subst hinfo
      exact hrank (id, node) (alookup_mem hid) p hp
  · intro id info hinfo p hp
    dsimp only at hinfo
    cases hid : alookup id g.nodes with
    | none => rw [hid] at hinfo; exact absurd hinfo (by simp)
    | some node =>
      rw [hid] at hinfo
      simp only [Option.map_some', Option.some.injEq] at hinfo
      subst hinfo
      have := hclosed (id, node) (alookup_mem hid) p hp
      obtain ⟨m, hm⟩ := Option.isSome_iff_exists.mp this
      show ((alookup p g.nodes).map GraphNode.lesson).isSome = true
      rw [hm]
      rfl
  · intro id info hinfo
    dsimp only at hinfo
    cases hid : alookup id g.nodes with
    | none => rw [hid] at hinfo; exact absurd hinfo (by simp)
    | some node =>
      rw [hid] at hinfo
      simp only [Option.map_some', Option.some.injEq] at hinfo
      subst hinfo
      refine ⟨node.status, ?_, ?_⟩
      · show (alookup id g.nodes).map GraphNode.status = _
        rw [hid]
        rfl
      · exact consistent_at_of_ConsistentG hcons id node hid
  · intro id info hinfo
    dsimp only at hinfo
    cases hid : alookup id g.nodes with
    | none => rw [hid] at hinfo; exact absurd hinfo (by simp)
    | some node =>
      rw [hid] at hinfo
      simp only [Option.map_some', Option.some.injEq] at hinfo
      subst hinfo
      have hkey : id ∈ akeys (lessonsOf g) := by
        show id ∈ akeys (g.nodes.map (fun p => (p.1, p.2.lesson)))
        rw [akeys_map_value]
        exact mem_keys_of_alookup hid
      obtain ⟨s, hs⟩ := Option.isSome_iff_exists.mp (hall id hkey)
      obtain ⟨info', hinfo', hcomp'⟩ := hmc id s hs
      have : alookup id (lessonsOf g) = some node.lesson := by
        show alookup id (g.nodes.map (fun p => (p.1, p.2.lesson))) = _
        rw [alookup_map_value, hid]
        rfl
      rw [this] at hinfo'
      injection hinfo' with hinfo'
      subst hinfo'
      exact ⟨s, hs, hcomp'⟩

/-! ### C1 and C4: the mutation fixtures and claim theorems -/

/-- The lesson record created in the C1 witness. -/
def fixture_lesson5 : LessonInfo := ⟨"Test 5", [2], .NotPracticed, []⟩

/-- The new lesson record used in the C1 edit witness. -/
def fixture_edit0 : LessonInfo := ⟨"TEST 0", [], .GoodEnough, []⟩

/-- The value of `create_new_node ok_backend 0 fixture_graph fixture_lesson5`. -/
def fixture_graph_created : Graph :=
  { nodes :=
      [(5, ⟨fixture_lesson5, .Pending⟩),
       (0, ⟨⟨"Test 0", [1], .NotPracticed, []⟩, .Pending⟩),
       (1, ⟨⟨"Test 1", [], .GoodEnough, []⟩, .Ok⟩),
       (2, ⟨⟨"Test 2", [1, 0, 3], .GoodEnough, []⟩, .Ok⟩),
       (3, ⟨⟨"Test 3", [0], .NotPracticed, []⟩, .MissingPrereq [0]⟩),
       (4, ⟨⟨"Test 4", [2], .NotPracticed, []⟩, .Pending⟩)],
    children := [(5, []), (0, [2, 3]), (1, [0, 2]), (2, [4, 5]), (3, [2]), (4, [])],
    next_id := 6 }

/-- The value of `edit_node ok_backend 0 10 fixture_graph 0 fixture_edit0`:
node 0 becomes `GoodEnough` with no prerequisites, and propagation turns
node 3 from `MissingPrereq [0]` into `Pending`. -/
def fixture_graph_edited : Graph :=
  { nodes :=
      [(0, ⟨fixture_edit0, .Ok⟩),
       (1, ⟨⟨"Test 1", [], .GoodEnough, []⟩, .Ok⟩),
       (2, ⟨⟨"Test 2", [1, 0, 3], .GoodEnough, []⟩, .Ok⟩),
       (3, ⟨⟨"Test 3", [0], .NotPracticed, []⟩, .Pending⟩),
       (4, ⟨⟨"Test 4", [2], .NotPracticed, []⟩, .Pending⟩)],
    children := [(0, [2, 3]), (1, [2]), (2, [4]), (3, [2]), (4, [])],
    next_id := 5 }

/-- The value of `delete_node ok_backend 0 10 fixture_graph 2`: node 2 is
gone, its former dependent 4 loses the prerequisite and is recomputed. -/
def fixture_graph_deleted : Graph :=
  { nodes :=
      [(0, ⟨⟨"Test 0", [1], .NotPracticed, []⟩, .Pending⟩),
       (1, ⟨⟨"Test 1", [], .GoodEnough, []⟩, .Ok⟩),
       (3, ⟨⟨"Test 3", [0], .NotPracticed, []⟩, .MissingPrereq [0]⟩),
       (4, ⟨⟨"Test 4", [], .NotPracticed, []⟩, .Pending⟩)],
    children := [(0, [3]), (1, [0]), (3, []), (4, [])],
    next_id := 5 }

/-- The backend trace of `delete_node ok_backend 0 10 fixture_graph 2`. -/
def fixture_delete_trace : List BackendOp :=
  [.update 4 ⟨"Test 4", [], .NotPracticed, []⟩, .remove 2]

/-- **C4**.  On a well-formed consistent graph, after `delete_node x`
succeeds: `x` is absent from the node map, no remaining node lists `x` as a
direct prerequisite, no `children` entry references `x` as a key or as a
list element, each former direct dependent of `x` has an `update` issued to
the backend and its stored readiness again matches the recomputation rule,
and the `remove x` operation is issued to the backend. -/
theorem delete_rewires (b : IOBackend) (today : Int) (fuel : Nat) (g : Graph)
    (x : Id) (g' : Graph) (tr : List BackendOp)
    (hWF : WF g) (hcons : ConsistentG today g)
    (h : delete_node b today fuel g x = some (g', tr)) :
    alookup x g'.nodes = none ∧
    (∀ p ∈ g'.nodes, x ∉ p.2.lesson.direct_prerequisites) ∧
    alookup x g'.children = none ∧
    (∀ c ∈ g'.children, x ∉ c.2) ∧
    (∃ childs, alookup x g.children = some childs ∧
      (∀ c ∈ childs, ∃ lsn, BackendOp.update c lsn ∈ tr) ∧
      (∀ c ∈ childs, consistent_at today g' c)) ∧
    BackendOp.remove x ∈ tr := by
  obtain ⟨-, h1, h2, h3, h4, h5, tr1, htr⟩ :=
    delete_spec b today fuel g x g' tr hWF hcons h
  exact ⟨h1, h2, h3, h4, h5, by rw [htr]; simp⟩

/-- Witness for C4: deleting node 2 from the fixture graph. -/
theorem delete_rewires_witness :
    alookup 2 fixture_graph_deleted.nodes = none ∧
    (∀ p ∈ fixture_graph_deleted.nodes, 2 ∉ p.2.lesson.direct_prerequisites) ∧
    alookup 2 fixture_graph_deleted.children = none ∧
    (∀ c ∈ fixture_graph_deleted.children, 2 ∉ c.2) ∧
    (∃ childs, alookup 2 fixture_graph.children = some childs ∧
      (∀ c ∈ childs, ∃ lsn, BackendOp.update c lsn ∈ fixture_delete_trace) ∧
      (∀ c ∈ childs, consistent_at 0 fixture_graph_deleted c)) ∧
    BackendOp.remove 2 ∈ fixture_delete_trace :=
  delete_rewires ok_backend 0 10 fixture_graph 2 fixture_graph_deleted
    fixture_delete_trace (by decide) (by decide) (by decide)

/-- **C1**.  On a well-formed graph whose stored statuses satisfy the
recomputation rule, each successful public mutation (`create_new_node`,
`edit_node` on a non-self-referential record, `delete_node`) leaves every
stored status equal to what the recomputation rule currently produces from
the node's own practice status and its prerequisites' stored statuses; and
on any such consistent graph that is acyclic (witnessed by a rank function)
and closed, the stored statuses coincide pointwise with a full bulk
re-resolve of the graph's lesson table. -/
theorem mutations_preserve_consistency (b : IOBackend) (today : Int) (fuel : Nat) :
    (∀ g info newId g' tr, WF g → ConsistentG today g →
      create_new_node b today g info = some (newId, g', tr) →
      ConsistentG today g') ∧
    (∀ g x info g' tr, WF g → ConsistentG today g →
      x ∉ info.direct_prerequisites →
      edit_node b today fuel g x info = some (g', tr) →
      ConsistentG today g') ∧
    (∀ g x g' tr, WF g → ConsistentG today g →
      delete_node b today fuel g x = some (g', tr) →
      ConsistentG today g') ∧
    (∀ g rank memo, RankOn g rank → NodesClosed g → ConsistentG today g →
      resolve_all today (lessonsOf g) fuel [] (akeys (lessonsOf g)) = some memo →
      ∀ id node, alookup id g.nodes = some node →
        alookup id memo = some node.status) := by
  refine ⟨?_, ?_, ?_, ?_⟩
  · intro g info newId g' tr hWF hcons h
    exact create_consistent b today g info newId g' tr hWF hcons h
  · intro g x info g' tr hWF hcons hx h
    exact edit_consistent b today fuel g x info g' tr hWF hcons hx h
  · intro g x g' tr hWF hcons h
    exact (delete_spec b today fuel g x g' tr hWF hcons h).1
  · intro g rank memo hrank hclosed hcons hres
    exact consistent_matches_resolve today g rank hrank hclosed hcons fuel memo hres

/-- Witness for C1: creating, editing and deleting on the fixture graph all
yield consistent graphs, and the fixture's stored statuses match the bulk
re-resolve of its lesson table (node 2 shown). -/
theorem mutations_preserve_consistency_witness :
    ConsistentG 0 fixture_graph_created ∧ ConsistentG 0 fixture_graph_edited ∧
    ConsistentG 0 fixture_graph_deleted ∧ alookup 2 fixture_memo = some .Ok :=
  ⟨(mutations_preserve_consistency ok_backend 0 10).1 fixture_graph
      fixture_lesson5 5 fixture_graph_created [.add 5 fixture_lesson5]
      (by decide) (by decide) (by decide),
   (mutations_preserve_consistency ok_backend 0 10).2.1 fixture_graph 0
      fixture_edit0 fixture_graph_edited [.update 0 fixture_edit0]
      (by decide) (by decide) (by decide) (by decide),
   (mutations_preserve_consistency ok_backend 0 10).2.2.1 fixture_graph 2
      fixture_graph_deleted fixture_delete_trace
      (by decide) (by decide) (by decide),
   (mutations_preserve_consistency ok_backend 0 10).2.2.2 fixture_graph
      fixture_rank fixture_memo (by decide) (by decide) (by decide) (by decide)
      2 ⟨fixture_lesson2, .Ok⟩ (by decide)⟩

end Buisson
